import Mathlib

/-!
# randompic: the distance-field compositing engine of `main.cpp`

A shallow embedding of the core of `main.cpp` (distance metrics, `dist_entry`,
`pre_image`, `set_png_bytes` and the per-frame step of `create_video`), followed
by the properties established about it.

Conventions of the embedding.

* C++ `int` is `ℤ`.  Signed overflow is undefined behaviour in C++, so the
  embedding agrees with the program on every run whose behaviour is defined.
  `/` and `%` on `int` are `Int.tdiv` and `Int.tmod` (truncation toward zero).
* A C++ `double` is the real number it holds; infinities and NaN are outside
  the embedding.  The geometry of a source (the metrics, `dist_to_point`,
  `max_dist`, `scaled_dist`) is defined in exact arithmetic, and its theorems
  are statements of order, sign and exact value.  The `double` each of these
  functions returns is the `_f64` definition of the same name, which stores
  every result through `round_f64`, the rounding of binary64.  The accumulator,
  `set_png_bytes` and `get_pixel` work on those `double`s and round every sum,
  product and quotient.  A quotient means what it means in the program when its
  divisor is not zero; the theorems on `scaled_dist` establish that `max_dist`
  is positive.
* The conversion of a `long` to `png::byte` (`unsigned char`) is reduction
  modulo `256`, as the language defines it.
* Loops are folds over the list of their index values, threading the state
  they mutate.
-/

namespace Randompic

/-! ## Points and metrics -/

/-- The five metrics: `enum class dist_type`. -/
inductive dist_type where
  | MANHATTAN
  | EUCLIDEAN
  | EUCLIDEAN2
  | CHEBYSHEV
  | MIN_XY
deriving DecidableEq, Repr

/-- An integer pair: `struct point`. -/
structure point where
  x : ℤ
  y : ℤ
deriving DecidableEq, Repr

/-- Componentwise sum: `operator+(point, point)`. -/
instance : Add point := ⟨fun a b => ⟨a.x + b.x, a.y + b.y⟩⟩

/-- Componentwise difference: `operator-(point, point)`. -/
instance : Sub point := ⟨fun a b => ⟨a.x - b.x, a.y - b.y⟩⟩

/-- The value held by the parameter `p` of `clamp_point` when its body ends. -/
def clamp_point_body (p : point) (width height : ℤ) : point :=
  let px := Int.tmod p.x width
  let px := if px < 0 then px + width else px
  let py := Int.tmod p.y height
  let py := if py < 0 then py + height else py
  ⟨px, py⟩

/-- The function `void clamp_point(point p, int width, int height)`: `p` is
received by value and nothing is returned, so the only thing a caller gets
back is `()`. -/
def clamp_point (p : point) (width height : ℤ) : Unit :=
  let _p := clamp_point_body p width height
  ()

/-- The metric `manhattan_dist(point d)`: the `int` sum, converted to `double`. -/
def manhattan_dist (d : point) : ℝ := ((|d.x| + |d.y| : ℤ) : ℝ)

/-- The two-point overload `manhattan_dist(point a, point b)`. -/
def manhattan_dist_between (a b : point) : ℝ := manhattan_dist (a - b)

/-- The metric `euclidean_dist2(point d)`: the `int` sum of squares, converted. -/
def euclidean_dist2 (d : point) : ℝ := ((d.x * d.x + d.y * d.y : ℤ) : ℝ)

/-- The two-point overload `euclidean_dist2(point a, point b)`. -/
def euclidean_dist2_between (a b : point) : ℝ := euclidean_dist2 (a - b)

/-- The metric `euclidean_dist(point d)`. -/
noncomputable def euclidean_dist (d : point) : ℝ := Real.sqrt (euclidean_dist2 d)

/-- The two-point overload `euclidean_dist(point a, point b)`. -/
noncomputable def euclidean_dist_between (a b : point) : ℝ := euclidean_dist (a - b)

/-- The metric `chebyshev_dist(point d)`. -/
def chebyshev_dist (d : point) : ℝ := ((max |d.x| |d.y| : ℤ) : ℝ)

/-- The two-point overload `chebyshev_dist(point a, point b)`. -/
def chebyshev_dist_between (a b : point) : ℝ := chebyshev_dist (a - b)

/-- The metric `min_xy_dist(point d)`. -/
def min_xy_dist (d : point) : ℝ := ((min |d.x| |d.y| : ℤ) : ℝ)

/-- The two-point overload `min_xy_dist(point a, point b)`. -/
def min_xy_dist_between (a b : point) : ℝ := min_xy_dist (a - b)

/-! ## Sources -/

/-- The member function `dist_entry::dist_delta`; of the object it reads only
`type`, which is why the constructor can call it before `max_dist` is set. -/
noncomputable def dist_delta (type : dist_type) (d : point) : ℝ :=
  match type with
  | dist_type.EUCLIDEAN => euclidean_dist d
  | dist_type.EUCLIDEAN2 => euclidean_dist2 d
  | dist_type.MANHATTAN => manhattan_dist d
  | dist_type.CHEBYSHEV => chebyshev_dist d
  | dist_type.MIN_XY => min_xy_dist d

/-- One source: `struct dist_entry`. -/
structure dist_entry where
  width : ℤ
  height : ℤ
  type : dist_type
  pnt : point
  max_dist : ℝ
  rweight : ℝ
  gweight : ℝ
  bweight : ℝ
  reverse_dist : Bool
  wrap : Bool

/-- The constructor `dist_entry::dist_entry`. -/
noncomputable def dist_entry.init (width height : ℤ) (type : dist_type) (pnt : point)
    (rweight gweight bweight : ℝ) (reverse wrap : Bool) : dist_entry :=
  { width := width
    height := height
    type := type
    pnt := pnt
    max_dist :=
      if wrap then dist_delta type ⟨Int.tdiv width 2, Int.tdiv height 2⟩
      else dist_delta type ⟨max pnt.x (width - pnt.x), max pnt.y (height - pnt.y)⟩
    rweight := rweight
    gweight := gweight
    bweight := bweight
    reverse_dist := reverse
    wrap := wrap }

/-- The member function `dist_entry::dist_to_point`. -/
noncomputable def dist_entry.dist_to_point (e : dist_entry) (p : point) : ℝ :=
  let d := e.pnt - p
  let d : point :=
    if e.wrap then
      let dx := if d.x < 0 then min (-d.x) (e.pnt.x - (p.x - e.width))
                else min d.x (p.x + e.width - e.pnt.x)
      let dy := if d.y < 0 then min (-d.y) (e.pnt.y - (p.y - e.height))
                else min d.y (p.y + e.height - e.pnt.y)
      ⟨dx, dy⟩
    else d
  dist_delta e.type d

/-- The member function `dist_entry::scaled_dist`. -/
noncomputable def dist_entry.scaled_dist (e : dist_entry) (p : point) : ℝ :=
  let ret := e.dist_to_point p / e.max_dist
  if e.reverse_dist then 1 - ret else ret

/-! ## Binary64 rounding -/

/-- The nearest integer, halfway cases to the even one: the rounding of the
significand that IEEE 754 prescribes by default. -/
noncomputable def round_half_even (y : ℝ) : ℤ :=
  if y - ⌊y⌋ < 1 / 2 then ⌊y⌋
  else if 1 / 2 < y - ⌊y⌋ then ⌊y⌋ + 1
  else if ⌊y⌋ % 2 = 0 then ⌊y⌋ else ⌊y⌋ + 1

/-- The exponent of the spacing of the binary64 values around `x`: `52` below
the binade of `x`, and never below `-1074` (the subnormal spacing). -/
noncomputable def ulp_exponent (x : ℝ) : ℤ := max (Int.log 2 |x|) (-1022) - 52

/-- The result a `double` operation stores for the exact result `x`: `x` rounded
to the nearest binary64 value, halfway cases to the even significand.  It is
the stored value whenever that value is finite (below `2 ^ 1024`). -/
noncomputable def round_f64 (x : ℝ) : ℝ :=
  (round_half_even (x / 2 ^ ulp_exponent x) : ℝ) * 2 ^ ulp_exponent x

/-- A finite value of the type `double`: a significand of at most 53 bits at an
exponent between `-1074` and `971`. -/
def is_f64 (x : ℝ) : Prop :=
  ∃ m k : ℤ, |m| < 2 ^ 53 ∧ -1074 ≤ k ∧ k ≤ 971 ∧ x = (m : ℝ) * 2 ^ k

/-- A real number with a 53-bit significand at a binary64 exponent (no upper
bound on the exponent). -/
def dyadic53 (x : ℝ) : Prop := ∃ m k : ℤ, |m| < 2 ^ 53 ∧ -1074 ≤ k ∧ x = (m : ℝ) * 2 ^ k

/-- The `double` that `euclidean_dist` returns: `std::sqrt` is correctly rounded,
so it is the exact root `euclidean_dist d` rounded to binary64. -/
noncomputable def euclidean_dist_f64 (d : point) : ℝ := round_f64 (euclidean_dist d)

/-- The `double` that `dist_to_point` returns: the metrics with an `int` value
convert exactly, `euclidean_dist` returns the rounded root. -/
noncomputable def dist_entry.dist_to_point_f64 (e : dist_entry) (p : point) : ℝ :=
  round_f64 (e.dist_to_point p)

/-- The `double` the member `max_dist` holds. -/
noncomputable def dist_entry.max_dist_f64 (e : dist_entry) : ℝ := round_f64 e.max_dist

/-- The `double` that `scaled_dist` returns: the quotient of the two `double`s
rounds, and so does the subtraction from `1.0`. -/
noncomputable def dist_entry.scaled_dist_f64 (e : dist_entry) (p : point) : ℝ :=
  let ret := round_f64 (e.dist_to_point_f64 p / e.max_dist_f64)
  if e.reverse_dist then round_f64 (1 - ret) else ret

/-- The `double` nearest to `0.1`. -/
noncomputable def tenth_f64 : ℝ := 3602879701896397 / 36028797018963968

/-- The `double` nearest to `0.2`. -/
noncomputable def fifth_f64 : ℝ := 3602879701896397 / 18014398509481984

/-- The `double` nearest to `0.3`. -/
noncomputable def three_tenths_f64 : ℝ := 5404319552844595 / 18014398509481984

/-! ## The accumulator -/

/-- Three running sums: `pre_image::pre_pixel`. -/
structure pre_pixel where
  r : ℝ
  g : ℝ
  b : ℝ

/-- An output pixel, `png::rgb_pixel`: three `png::byte` values. -/
structure rgb_pixel where
  red : ℕ
  green : ℕ
  blue : ℕ
deriving DecidableEq, Repr

/-- The accumulator: `class pre_image`. -/
structure pre_image where
  pixels : List pre_pixel
  width : ℤ
  rweight : ℝ
  gweight : ℝ
  bweight : ℝ

/-- The constructor `pre_image::pre_image`: `width * height` zeroed slots and
zero total weights. -/
def pre_image.init (width height : ℤ) : pre_image :=
  { pixels := List.replicate (width * height).toNat ⟨0, 0, 0⟩
    width := width
    rweight := 0
    gweight := 0
    bweight := 0 }

/-- The member function `pre_image::add_to_weights`; each `+=` stores the
rounded sum. -/
noncomputable def pre_image.add_to_weights (im : pre_image) (rweight gweight bweight : ℝ) :
    pre_image :=
  { im with
    rweight := round_f64 (im.rweight + rweight)
    gweight := round_f64 (im.gweight + gweight)
    bweight := round_f64 (im.bweight + bweight) }

/-- The slot index `x + y * width` that `pre_image::pixel_ref` hands to the vector. -/
def pre_image.pixel_index (im : pre_image) (x y : ℤ) : ℕ := (x + y * im.width).toNat

/-- The slot read through `pre_image::pixel_ref`. -/
def pre_image.pixel_ref (im : pre_image) (x y : ℤ) : pre_pixel :=
  im.pixels.getD (im.pixel_index x y) ⟨0, 0, 0⟩

/-- The member function `pre_image::add_to_pixel`; each `+=` stores the rounded
sum. -/
noncomputable def pre_image.add_to_pixel (im : pre_image) (x y : ℤ) (r g b : ℝ) : pre_image :=
  let pixel := im.pixel_ref x y
  { im with
    pixels := im.pixels.set (im.pixel_index x y)
      ⟨round_f64 (pixel.r + r), round_f64 (pixel.g + g), round_f64 (pixel.b + b)⟩ }

/-- The library function `std::lround`: nearest integer, halfway cases away from zero. -/
noncomputable def lround (v : ℝ) : ℤ := if 0 ≤ v then ⌊v + 1 / 2⌋ else ⌈v - 1 / 2⌉

/-- The conversion of a `long` to `png::byte` (`unsigned char`): modulo `256`. -/
def to_byte (l : ℤ) : ℕ := (l % 256).toNat

/-- One channel of `pre_image::get_pixel`: from the slot's sum and the total
weight of the channel to the byte.  The division and the two multiplications
each store a rounded result. -/
noncomputable def get_pixel_channel (acc weight : ℝ) : ℕ :=
  let f := if weight = 0 then 0 else round_f64 (acc / weight)
  let scale : ℝ := 3.5
  let f := round_f64 (f * scale)
  let max : ℤ := 255
  let l := lround (round_f64 (f * (max : ℝ)))
  to_byte l

/-- The member function `pre_image::get_pixel`. -/
noncomputable def pre_image.get_pixel (im : pre_image) (x y : ℤ) : rgb_pixel :=
  let pixel := im.pixel_ref x y
  { red := get_pixel_channel pixel.r im.rweight
    green := get_pixel_channel pixel.g im.gweight
    blue := get_pixel_channel pixel.b im.bweight }

/-! ## Compositing -/

/-- Modelled from the spec: `png::image<png::rgb_pixel>` of the png++ library,
"a width×height grid of RGB byte triples"; the grid is a function of the
column and the row. -/
structure png_image where
  width : ℕ
  height : ℕ
  pix : ℤ → ℤ → rgb_pixel

/-- Modelled from the spec: `png::image::set_pixel(x, y, p)` of the png++
library stores `p` at column `x` of row `y` and leaves the rest of the grid. -/
def png_image.set_pixel (image : png_image) (x y : ℤ) (p : rgb_pixel) : png_image :=
  { image with pix := fun x' y' => if x' = x ∧ y' = y then p else image.pix x' y' }

/-- Modelled from the spec: `png::image::get_pixel(x, y)` of the png++ library. -/
def png_image.get_pixel (image : png_image) (x y : ℤ) : rgb_pixel := image.pix x y

/-- The values `0, 1, ..., n - 1` taken by the counter of `for (int i = 0; i < n; i++)`. -/
def loop_range (n : ℤ) : List ℤ := (List.range n.toNat).map Int.ofNat

/-- The first loop of `set_png_bytes`: every source's weights go into the totals. -/
noncomputable def add_all_weights (pimage : pre_image) (entries : List dist_entry) : pre_image :=
  entries.foldl (fun pim entry => pim.add_to_weights entry.rweight entry.gweight entry.bweight)
    pimage

/-- The innermost loop of `set_png_bytes` at the pixel `(x, y)`; `dist` is the
`double` that `scaled_dist` returns and each product stores a rounded result. -/
noncomputable def add_all_to_pixel (pimage : pre_image) (entries : List dist_entry) (x y : ℤ) :
    pre_image :=
  entries.foldl
    (fun pim entry =>
      let dist := entry.scaled_dist_f64 ⟨x, y⟩
      let rf := round_f64 (dist * entry.rweight)
      let gf := round_f64 (dist * entry.gweight)
      let bf := round_f64 (dist * entry.bweight)
      pim.add_to_pixel x y rf gf bf)
    pimage

/-- The second loop nest of `set_png_bytes`: rows, then columns, then sources. -/
noncomputable def accumulate (pimage : pre_image) (entries : List dist_entry)
    (width height : ℤ) : pre_image :=
  (loop_range height).foldl
    (fun pim y => (loop_range width).foldl (fun pim x => add_all_to_pixel pim entries x y) pim)
    pimage

/-- The third loop nest of `set_png_bytes`: every pixel of the image is set
from the accumulator. -/
noncomputable def write_pixels (image : png_image) (pimage : pre_image) (width height : ℤ) :
    png_image :=
  (loop_range height).foldl
    (fun img y =>
      (loop_range width).foldl (fun img x => img.set_pixel x y (pimage.get_pixel x y)) img)
    image

/-- The function `set_png_bytes`; the image it mutates is returned. -/
noncomputable def set_png_bytes (image : png_image) (entries : List dist_entry) : png_image :=
  let width : ℤ := image.width
  let height : ℤ := image.height
  let pimage := pre_image.init width height
  let pimage := add_all_weights pimage entries
  let pimage := accumulate pimage entries width height
  write_pixels image pimage width height

/-! ## Animation -/

/-- The body of the loop over `j` in `create_video`: the source is rebuilt at
`entry.pnt + frame_pnt_delta[j]`.  The call of `clamp_point` is kept, with the
only result a `void` function taking its point by value can have. -/
noncomputable def create_video_advance_entry (width height : ℤ) (entry : dist_entry)
    (delta : point) : dist_entry :=
  let new_pnt := entry.pnt + delta
  let _u : Unit := clamp_point new_pnt width height
  let new_rweight := entry.rweight
  let new_gweight := entry.gweight
  let new_bweight := entry.bweight
  dist_entry.init width height entry.type new_pnt new_rweight new_gweight new_bweight
    entry.reverse_dist entry.wrap

/-- The loop over `j` in `create_video`: every source advances by its own delta. -/
noncomputable def create_video_advance (width height : ℤ) (entries : List dist_entry)
    (frame_pnt_delta : List point) : List dist_entry :=
  List.zipWith (create_video_advance_entry width height) entries frame_pnt_delta

/-- The values `make_entry` draws from the random generator, in the order drawn. -/
structure entry_draws where
  type : dist_type
  x : ℤ
  y : ℤ
  reverse : Bool
  wrap : Bool
  rweight : ℝ
  gweight : ℝ
  bweight : ℝ

/-- The function `make_entry`, as a function of the values it draws. -/
noncomputable def make_entry (width height : ℤ) (draws : entry_draws) : dist_entry :=
  dist_entry.init width height draws.type ⟨draws.x, draws.y⟩ draws.rweight draws.gweight
    draws.bweight draws.reverse draws.wrap

/-- The first loop of `create_video`: each source is made by `make_entry` and
then has its `wrap` member assigned `true`. -/
noncomputable def create_video_entries (width height : ℤ) (draws : List entry_draws) :
    List dist_entry :=
  draws.map fun d => { make_entry width height d with wrap := true }

/-- The sources `create_video` hands to `set_png_bytes` at frame `i`. -/
noncomputable def create_video_entries_at (width height : ℤ) (entries : List dist_entry)
    (frame_pnt_delta : List point) : ℕ → List dist_entry
  | 0 => entries
  | i + 1 =>
    create_video_advance width height
      (create_video_entries_at width height entries frame_pnt_delta i) frame_pnt_delta

/-! ## Specification-side definitions -/

/-- The scaled, rounded intensity of one channel before it becomes a byte: the
`long` that `std::lround` returns in `get_pixel`. -/
noncomputable def scaled_rounded (acc weight : ℝ) : ℤ :=
  lround
    (round_f64
      (round_f64 ((if weight = 0 then 0 else round_f64 (acc / weight)) * 3.5) * 255))

/-- The byte the specification describes for one channel: the scaled, rounded
intensity clamped to `[0, 255]`. -/
noncomputable def get_pixel_channel_spec (acc weight : ℝ) : ℤ :=
  max 0 (min 255 (scaled_rounded acc weight))

/-- The inputs of one channel of `get_pixel` on which every step has a finite
result that fits a `long`: two finite `double`s whose quotient, when the
weight is not zero, is at most `2 ^ 52` in magnitude. -/
def channel_in_range (acc weight : ℝ) : Prop :=
  is_f64 acc ∧ is_f64 weight ∧ (weight ≠ 0 → |acc / weight| ≤ 2 ^ 52)

/-- What one source adds to the three sums of the slot of the pixel `p`. -/
noncomputable def add_contribution (p : point) (px : pre_pixel) (entry : dist_entry) :
    pre_pixel :=
  ⟨round_f64 (px.r + round_f64 (entry.scaled_dist_f64 p * entry.rweight)),
    round_f64 (px.g + round_f64 (entry.scaled_dist_f64 p * entry.gweight)),
    round_f64 (px.b + round_f64 (entry.scaled_dist_f64 p * entry.bweight))⟩

/-- The three sums over all sources at the pixel `p`, added in list order from zero. -/
noncomputable def pixel_sum (entries : List dist_entry) (p : point) : pre_pixel :=
  entries.foldl (add_contribution p) ⟨0, 0, 0⟩

/-- What one source adds to the three total weights. -/
noncomputable def add_weight (w : pre_pixel) (entry : dist_entry) : pre_pixel :=
  ⟨round_f64 (w.r + entry.rweight), round_f64 (w.g + entry.gweight),
    round_f64 (w.b + entry.bweight)⟩

/-- The three total weights of all sources, added in list order from zero. -/
noncomputable def weight_sum (entries : List dist_entry) : pre_pixel :=
  entries.foldl add_weight ⟨0, 0, 0⟩

/-- The output pixel as a function of the sources alone: each channel's sum
over its total weight, through the byte conversion of `get_pixel`. -/
noncomputable def composite_pixel (entries : List dist_entry) (x y : ℤ) : rgb_pixel :=
  { red := get_pixel_channel (pixel_sum entries ⟨x, y⟩).r (weight_sum entries).r
    green := get_pixel_channel (pixel_sum entries ⟨x, y⟩).g (weight_sum entries).g
    blue := get_pixel_channel (pixel_sum entries ⟨x, y⟩).b (weight_sum entries).b }

/-- An accumulator of a `W x H` canvas whose total weights are `wt`. -/
def pre_image.shaped (W H : ℤ) (wt : pre_pixel) (im : pre_image) : Prop :=
  im.width = W ∧ im.pixels.length = (W * H).toNat ∧
    im.rweight = wt.r ∧ im.gweight = wt.g ∧ im.bweight = wt.b

/-- The displacement `dist_entry::dist_to_point` hands to `dist_delta`: the
local `d` of that function when its last line is reached. -/
def dist_entry.delta_to_point (e : dist_entry) (p : point) : point :=
  let d := e.pnt - p
  if e.wrap then
    let dx := if d.x < 0 then min (-d.x) (e.pnt.x - (p.x - e.width))
              else min d.x (p.x + e.width - e.pnt.x)
    let dy := if d.y < 0 then min (-d.y) (e.pnt.y - (p.y - e.height))
              else min d.y (p.y + e.height - e.pnt.y)
    ⟨dx, dy⟩
  else d

/-- The true toroidal distance of the specification: `v` is the minimum of the
metric over the displacements `anchor - p + (i * width, j * height)`, `i` and
`j` ranging over the integers. -/
def is_toroidal_min (t : dist_type) (width height : ℤ) (anchor p : point) (v : ℝ) : Prop :=
  (∀ i j : ℤ, v ≤ dist_delta t (anchor - p + ⟨i * width, j * height⟩)) ∧
    ∃ i j : ℤ, v = dist_delta t (anchor - p + ⟨i * width, j * height⟩)

/-- The normalisation the specification describes for a non-wrapping source:
the largest value of the metric over the displacements from the anchor to the
four canvas corners `(0, 0)`, `(width, 0)`, `(0, height)`, `(width, height)`. -/
noncomputable def corner_max_dist (t : dist_type) (width height : ℤ) (pnt : point) : ℝ :=
  max (max (dist_delta t (pnt - ⟨0, 0⟩)) (dist_delta t (pnt - ⟨width, 0⟩)))
    (max (dist_delta t (pnt - ⟨0, height⟩)) (dist_delta t (pnt - ⟨width, height⟩)))

/-- One axis of the wrapped displacement of `dist_to_point`: anchor coordinate
`a`, pixel coordinate `p`, canvas extent `n`. -/
def wrap_axis (a p n : ℤ) : ℤ :=
  if a - p < 0 then min (-(a - p)) (a - (p - n)) else min (a - p) (p + n - a)

/-! ## Rounding to binary64 -/

theorem round_half_even_near {y : ℝ} {n : ℤ} (h : |y - n| < 1 / 2) : round_half_even y = n := by
  have h' := abs_lt.mp h
  have hf : ⌊y⌋ = n ∨ ⌊y⌋ = n - 1 := by
    have h1 : n - 1 ≤ ⌊y⌋ := Int.le_floor.mpr (by push_cast; linarith)
    have h2 : ⌊y⌋ < n + 1 := Int.floor_lt.mpr (by push_cast; linarith)
    omega
  unfold round_half_even
  rcases hf with hf | hf
  · rw [hf, if_pos (by linarith)]
  · rw [hf]
    have hc : ((n - 1 : ℤ) : ℝ) = (n : ℝ) - 1 := by push_cast; ring
    rw [hc, if_neg (by linarith), if_pos (by linarith)]
    ring

theorem round_half_even_int (n : ℤ) : round_half_even (n : ℝ) = n :=
  round_half_even_near (by simp)

theorem round_half_even_tie {y : ℝ} {f : ℤ} (h : y = f + 1 / 2) :
    round_half_even y = if f % 2 = 0 then f else f + 1 := by
  have hf : ⌊y⌋ = f := by
    rw [Int.floor_eq_iff]
    constructor <;> linarith
  unfold round_half_even
  rw [hf, if_neg (by linarith), if_neg (by linarith)]

theorem abs_round_half_even_sub_le (y : ℝ) : |(round_half_even y : ℝ) - y| ≤ 1 / 2 := by
  have h1 := Int.floor_le y
  have h2 := Int.lt_floor_add_one y
  unfold round_half_even
  split_ifs with ha hb hc
  · rw [abs_le]; constructor <;> linarith
  · rw [abs_le]; push_cast; constructor <;> linarith
  · rw [abs_le]; constructor <;> linarith
  · rw [abs_le]; push_cast; constructor <;> linarith

theorem abs_round_half_even_le {y : ℝ} {N : ℤ} (h : |y| ≤ N) : |round_half_even y| ≤ N := by
  have hN : (0 : ℝ) ≤ N := le_trans (abs_nonneg y) h
  have h' := abs_le.mp h
  have h1 := Int.floor_le y
  have h2 := Int.lt_floor_add_one y
  have hfl : ⌊y⌋ ≤ N := by
    have : (⌊y⌋ : ℝ) ≤ N := by linarith
    exact_mod_cast this
  have hfl0 : -N ≤ ⌊y⌋ := Int.le_floor.mpr (by push_cast; linarith)
  have hlt : y < N → ⌊y⌋ + 1 ≤ N := by
    intro hy
    have : ⌊y⌋ < N := Int.floor_lt.mpr hy
    omega
  unfold round_half_even
  rw [abs_le]
  split_ifs with ha hb hc
  · exact ⟨hfl0, hfl⟩
  · refine ⟨by omega, hlt ?_⟩
    by_contra hcon
    have hy : y = N := le_antisymm h'.2 (not_lt.mp hcon)
    rw [hy, Int.floor_intCast] at hb
    linarith
  · exact ⟨hfl0, hfl⟩
  · refine ⟨by omega, hlt ?_⟩
    by_contra hcon
    have hy : y = N := le_antisymm h'.2 (not_lt.mp hcon)
    rw [hy, Int.floor_intCast] at ha
    simp at ha

theorem two_zpow_pos (k : ℤ) : (0 : ℝ) < 2 ^ k := zpow_pos (by norm_num) k

theorem int_log_eq {x : ℝ} {e : ℤ} (h1 : (2 : ℝ) ^ e ≤ |x|) (h2 : |x| < 2 ^ (e + 1)) :
    Int.log 2 |x| = e := by
  have hpos : 0 < |x| := lt_of_lt_of_le (two_zpow_pos e) h1
  have hb : 1 < (2 : ℕ) := by norm_num
  have ha : e ≤ Int.log 2 |x| := (Int.zpow_le_iff_le_log hb hpos).mp (by simpa using h1)
  have hc : Int.log 2 |x| < e + 1 := (Int.lt_zpow_iff_log_lt hb hpos).mp (by simpa using h2)
  omega

theorem int_log_bounds {x : ℝ} (hx : x ≠ 0) :
    (2 : ℝ) ^ Int.log 2 |x| ≤ |x| ∧ |x| < 2 ^ (Int.log 2 |x| + 1) := by
  have hpos : 0 < |x| := abs_pos.mpr hx
  have hb : 1 < (2 : ℕ) := by norm_num
  constructor
  · simpa using Int.zpow_log_le_self hb hpos
  · simpa using Int.lt_zpow_succ_log_self hb |x|

theorem ulp_exponent_eq {x : ℝ} {e : ℤ} (he : -1022 ≤ e) (h1 : (2 : ℝ) ^ e ≤ |x|)
    (h2 : |x| < 2 ^ (e + 1)) : ulp_exponent x = e - 52 := by
  unfold ulp_exponent
  rw [int_log_eq h1 h2, max_eq_left he]

theorem ulp_exponent_ge (x : ℝ) : -1074 ≤ ulp_exponent x := by
  unfold ulp_exponent
  have := le_max_right (Int.log 2 |x|) (-1022)
  omega

/-- The scaled value lies within `2 ^ 53` of zero. -/
theorem abs_div_ulp_lt (x : ℝ) : |x / 2 ^ ulp_exponent x| < 2 ^ 53 := by
  by_cases hx : x = 0
  · rw [hx, zero_div, abs_zero]
    norm_num
  · have hb := (int_log_bounds hx).2
    have hq := two_zpow_pos (ulp_exponent x)
    rw [abs_div, abs_of_pos hq, div_lt_iff₀ hq]
    have hle : Int.log 2 |x| + 1 ≤ 53 + ulp_exponent x := by
      unfold ulp_exponent
      have := le_max_left (Int.log 2 |x|) (-1022)
      omega
    calc |x| < 2 ^ (Int.log 2 |x| + 1) := hb
      _ ≤ 2 ^ (53 + ulp_exponent x) := zpow_le_zpow_right₀ (by norm_num) hle
      _ = 2 ^ 53 * 2 ^ ulp_exponent x := by
        rw [zpow_add₀ (by norm_num)]
        norm_num

theorem is_f64_dyadic53 {x : ℝ} (h : is_f64 x) : dyadic53 x := by
  obtain ⟨m, k, hm, hk, _, hx⟩ := h
  exact ⟨m, k, hm, hk, hx⟩

theorem round_f64_zero : round_f64 0 = 0 := by
  unfold round_f64
  rw [zero_div]
  have : round_half_even 0 = 0 := by
    have := round_half_even_int 0
    simpa using this
  rw [this]
  simp

theorem round_f64_eq_of_near {x : ℝ} {e m : ℤ} (he : -1022 ≤ e) (h1 : (2 : ℝ) ^ e ≤ |x|)
    (h2 : |x| < 2 ^ (e + 1)) (h : |x / 2 ^ (e - 52) - m| < 1 / 2) :
    round_f64 x = (m : ℝ) * 2 ^ (e - 52) := by
  unfold round_f64
  rw [ulp_exponent_eq he h1 h2, round_half_even_near h]

theorem round_f64_eq_of_tie {x : ℝ} {e f : ℤ} (he : -1022 ≤ e) (h1 : (2 : ℝ) ^ e ≤ |x|)
    (h2 : |x| < 2 ^ (e + 1)) (h : x / 2 ^ (e - 52) = f + 1 / 2) :
    round_f64 x = ((if f % 2 = 0 then f else f + 1 : ℤ) : ℝ) * 2 ^ (e - 52) := by
  unfold round_f64
  rw [ulp_exponent_eq he h1 h2, round_half_even_tie h]

theorem round_f64_of_dyadic53 {x : ℝ} (h : dyadic53 x) : round_f64 x = x := by
  obtain ⟨m, k, hm, hk, hx⟩ := h
  by_cases hx0 : x = 0
  · rw [hx0, round_f64_zero]
  · have hkg : ulp_exponent x ≤ k := by
      have hb := (int_log_bounds hx0).1
      have hm' : |(m : ℝ)| < 2 ^ (53 : ℤ) := by
        have h : ((|m| : ℤ) : ℝ) < ((2 ^ 53 : ℤ) : ℝ) := Int.cast_lt.mpr hm
        rw [Int.cast_abs] at h
        norm_num at h ⊢
        exact h
      have hlt : (2 : ℝ) ^ Int.log 2 |x| < 2 ^ (53 + k) := by
        calc (2 : ℝ) ^ Int.log 2 |x| ≤ |x| := hb
          _ = |(m : ℝ)| * 2 ^ k := by rw [hx, abs_mul, abs_of_pos (two_zpow_pos k)]
          _ < 2 ^ (53 : ℤ) * 2 ^ k := mul_lt_mul_of_pos_right hm' (two_zpow_pos k)
          _ = 2 ^ (53 + k) := by rw [zpow_add₀ (by norm_num)]
      have hL : Int.log 2 |x| < 53 + k := (zpow_lt_zpow_iff_right₀ (by norm_num)).mp hlt
      unfold ulp_exponent
      rcases max_cases (Int.log 2 |x|) (-1022) with ⟨h, _⟩ | ⟨h, _⟩ <;> rw [h] <;> omega
    obtain ⟨n, hn⟩ := Int.eq_ofNat_of_zero_le (sub_nonneg.mpr hkg)
    have hy : x / 2 ^ ulp_exponent x = ((m * 2 ^ n : ℤ) : ℝ) := by
      have hk' : k = ulp_exponent x + n := by omega
      rw [div_eq_iff (two_zpow_pos _).ne']
      conv_lhs => rw [hx, hk', zpow_add₀ (by norm_num : (2 : ℝ) ≠ 0)]
      push_cast
      rw [zpow_natCast]
      ring
    unfold round_f64
    rw [hy, round_half_even_int, ← hy]
    exact div_mul_cancel₀ x (two_zpow_pos _).ne'

theorem round_f64_dyadic53 (x : ℝ) : dyadic53 (round_f64 x) := by
  have hy := abs_div_ulp_lt x
  have hn : |round_half_even (x / 2 ^ ulp_exponent x)| ≤ 2 ^ 53 := by
    apply abs_round_half_even_le
    have h53 : ((2 ^ 53 : ℤ) : ℝ) = 2 ^ 53 := by norm_num
    rw [h53]
    exact hy.le
  have hg := ulp_exponent_ge x
  rcases lt_or_eq_of_le hn with hlt | heq
  · exact ⟨_, _, hlt, hg, rfl⟩
  · rcases abs_eq (by norm_num : (0 : ℤ) ≤ 2 ^ 53) |>.mp heq with h | h
    · refine ⟨1, ulp_exponent x + 53, by norm_num, by omega, ?_⟩
      unfold round_f64
      rw [h, zpow_add₀ (by norm_num)]
      push_cast
      norm_num
      ring
    · refine ⟨-1, ulp_exponent x + 53, by norm_num, by omega, ?_⟩
      unfold round_f64
      rw [h, zpow_add₀ (by norm_num)]
      push_cast
      norm_num
      ring

theorem round_f64_idem (x : ℝ) : round_f64 (round_f64 x) = round_f64 x :=
  round_f64_of_dyadic53 (round_f64_dyadic53 x)

theorem round_f64_of_is_f64 {x : ℝ} (h : is_f64 x) : round_f64 x = x :=
  round_f64_of_dyadic53 (is_f64_dyadic53 h)

/-- The relative error of one rounding in the normal range. -/
theorem abs_round_f64_sub_le {x : ℝ} (hx : (2 : ℝ) ^ (-1022 : ℤ) ≤ |x|) :
    |round_f64 x - x| ≤ |x| * 2 ^ (-53 : ℤ) := by
  have hpos : 0 < |x| := lt_of_lt_of_le (two_zpow_pos _) hx
  have hx0 : x ≠ 0 := abs_pos.mp hpos
  have hb : 1 < (2 : ℕ) := by norm_num
  have hL : -1022 ≤ Int.log 2 |x| := (Int.zpow_le_iff_le_log hb hpos).mp (by simpa using hx)
  have hg : ulp_exponent x = Int.log 2 |x| - 52 := by
    unfold ulp_exponent
    rw [max_eq_left hL]
  have hq := two_zpow_pos (ulp_exponent x)
  have herr := abs_round_half_even_sub_le (x / 2 ^ ulp_exponent x)
  have h1 : round_f64 x - x
      = ((round_half_even (x / 2 ^ ulp_exponent x) : ℝ) - x / 2 ^ ulp_exponent x)
        * 2 ^ ulp_exponent x := by
    unfold round_f64
    rw [sub_mul, div_mul_cancel₀ x hq.ne']
  rw [h1, abs_mul, abs_of_pos hq]
  calc |(round_half_even (x / 2 ^ ulp_exponent x) : ℝ) - x / 2 ^ ulp_exponent x|
        * 2 ^ ulp_exponent x
      ≤ 1 / 2 * 2 ^ ulp_exponent x := mul_le_mul_of_nonneg_right herr hq.le
    _ = 2 ^ Int.log 2 |x| * 2 ^ (-53 : ℤ) := by
      rw [hg, ← zpow_add₀ (by norm_num : (2 : ℝ) ≠ 0)]
      have : Int.log 2 |x| - 52 = (Int.log 2 |x| + -53) + 1 := by ring
      rw [this, zpow_add₀ (by norm_num : (2 : ℝ) ≠ 0) _ 1]
      simp
      ring
    _ ≤ |x| * 2 ^ (-53 : ℤ) :=
      mul_le_mul_of_nonneg_right (int_log_bounds hx0).1 (two_zpow_pos _).le

theorem round_f64_eq_of_near_pos {x : ℝ} {e m : ℤ} (he : -1022 ≤ e) (h1 : (2 : ℝ) ^ e ≤ x)
    (h2 : x < 2 ^ (e + 1)) (hlo : ((m : ℝ) - 1 / 2) * 2 ^ (e - 52) < x)
    (hhi : x < ((m : ℝ) + 1 / 2) * 2 ^ (e - 52)) :
    round_f64 x = (m : ℝ) * 2 ^ (e - 52) := by
  have hx : 0 < x := lt_of_lt_of_le (two_zpow_pos e) h1
  have hq := two_zpow_pos (e - 52)
  apply round_f64_eq_of_near he (by rwa [abs_of_pos hx]) (by rwa [abs_of_pos hx])
  rw [abs_lt]
  constructor
  · have := (lt_div_iff₀ hq).mpr hlo
    linarith
  · have := (div_lt_iff₀ hq).mpr hhi
    linarith

theorem round_f64_eq_of_tie_pos {x : ℝ} {e f : ℤ} (he : -1022 ≤ e) (h1 : (2 : ℝ) ^ e ≤ x)
    (h2 : x < 2 ^ (e + 1)) (h : x = ((f : ℝ) + 1 / 2) * 2 ^ (e - 52)) :
    round_f64 x = ((if f % 2 = 0 then f else f + 1 : ℤ) : ℝ) * 2 ^ (e - 52) := by
  have hx : 0 < x := lt_of_lt_of_le (two_zpow_pos e) h1
  have hq := two_zpow_pos (e - 52)
  apply round_f64_eq_of_tie he (by rwa [abs_of_pos hx]) (by rwa [abs_of_pos hx])
  rw [div_eq_iff hq.ne']
  exact h

/-! ## Arithmetic of `lround` and `to_byte` -/

theorem lround_of_nonneg {v : ℝ} (h : 0 ≤ v) : lround v = ⌊v + 1 / 2⌋ := by
  simp [lround, h]

theorem lround_zero : lround 0 = 0 := by
  rw [lround_of_nonneg le_rfl, Int.floor_eq_iff]
  norm_num

theorem to_byte_cast (l : ℤ) : ((to_byte l : ℕ) : ℤ) = l % 256 := by
  unfold to_byte
  exact Int.toNat_of_nonneg (Int.emod_nonneg l (by norm_num))

theorem round_f64_self {x : ℝ} (m k : ℤ) (hlo : -2 ^ 53 < m) (hhi : m < 2 ^ 53)
    (hk : -1074 ≤ k) (hx : x = (m : ℝ) * 2 ^ k) : round_f64 x = x :=
  round_f64_of_dyadic53 ⟨m, k, abs_lt.mpr ⟨hlo, hhi⟩, hk, hx⟩

theorem get_pixel_channel_cast (acc weight : ℝ) :
    ((get_pixel_channel acc weight : ℕ) : ℤ) = scaled_rounded acc weight % 256 := by
  unfold get_pixel_channel scaled_rounded
  simp only [to_byte_cast]
  norm_num

theorem scaled_rounded_zero_weight (acc : ℝ) : scaled_rounded acc 0 = 0 := by
  unfold scaled_rounded
  rw [if_pos rfl, zero_mul, round_f64_zero, zero_mul, round_f64_zero, lround_zero]

theorem scaled_rounded_zero_acc {weight : ℝ} (hw : weight ≠ 0) : scaled_rounded 0 weight = 0 := by
  unfold scaled_rounded
  rw [if_neg hw, zero_div, round_f64_zero, zero_mul, round_f64_zero, zero_mul, round_f64_zero,
    lround_zero]

theorem scaled_rounded_one : scaled_rounded 1 1 = 893 := by
  have h1 : round_f64 ((1 : ℝ) / 1) = 1 := by
    rw [div_one]
    exact round_f64_self 1 0 (by norm_num) (by norm_num) (by norm_num) (by norm_num)
  have h2 : round_f64 ((1 : ℝ) * 3.5) = 7 / 2 := by
    rw [show (1 : ℝ) * 3.5 = 7 / 2 by norm_num]
    exact round_f64_self 7 (-1) (by norm_num) (by norm_num) (by norm_num) (by norm_num)
  have h3 : round_f64 ((7 : ℝ) / 2 * 255) = 1785 / 2 := by
    rw [show (7 : ℝ) / 2 * 255 = 1785 / 2 by norm_num]
    exact round_f64_self 1785 (-1) (by norm_num) (by norm_num) (by norm_num) (by norm_num)
  unfold scaled_rounded
  rw [if_neg one_ne_zero, h1, h2, h3, lround_of_nonneg (by norm_num), Int.floor_eq_iff]
  norm_num

theorem scaled_rounded_three_quarters : scaled_rounded (3 / 4) 1 = 669 := by
  have h1 : round_f64 ((3 : ℝ) / 4 / 1) = 3 / 4 := by
    rw [div_one]
    exact round_f64_self 3 (-2) (by norm_num) (by norm_num) (by norm_num) (by norm_num)
  have h2 : round_f64 ((3 : ℝ) / 4 * 3.5) = 21 / 8 := by
    rw [show (3 : ℝ) / 4 * 3.5 = 21 / 8 by norm_num]
    exact round_f64_self 21 (-3) (by norm_num) (by norm_num) (by norm_num) (by norm_num)
  have h3 : round_f64 ((21 : ℝ) / 8 * 255) = 5355 / 8 := by
    rw [show (21 : ℝ) / 8 * 255 = 5355 / 8 by norm_num]
    exact round_f64_self 5355 (-3) (by norm_num) (by norm_num) (by norm_num) (by norm_num)
  unfold scaled_rounded
  rw [if_neg one_ne_zero, h1, h2, h3, lround_of_nonneg (by norm_num), Int.floor_eq_iff]
  norm_num

/-- The last three steps of `get_pixel` from the quotient
`6004799503160661 * 2 ^ (-54)`, the `double` just below `1 / 3`. -/
theorem scaled_chain_below_third :
    lround (round_f64 (round_f64 ((6004799503160661 : ℝ) * 2 ^ ((-2 : ℤ) - 52) * 3.5) * 255))
      = 297 := by
  have h2 : round_f64 ((6004799503160661 : ℝ) * 2 ^ ((-2 : ℤ) - 52) * 3.5)
      = ((5254199565265578 : ℤ) : ℝ) * 2 ^ ((0 : ℤ) - 52) :=
    round_f64_eq_of_near_pos (by norm_num) (by norm_num) (by norm_num) (by norm_num)
      (by norm_num)
  have h3 : round_f64 (((5254199565265578 : ℤ) : ℝ) * 2 ^ ((0 : ℤ) - 52) * 255)
      = ((5233675348213759 : ℤ) : ℝ) * 2 ^ ((8 : ℤ) - 52) :=
    round_f64_eq_of_near_pos (by norm_num) (by norm_num) (by norm_num) (by norm_num)
      (by norm_num)
  rw [h2, h3, lround_of_nonneg (by norm_num), Int.floor_eq_iff]
  norm_num

/-- The last three steps of `get_pixel` from the quotient
`6004799503160662 * 2 ^ (-54)`, the `double` just above `1 / 3`. -/
theorem scaled_chain_above_third :
    lround (round_f64 (round_f64 ((6004799503160662 : ℝ) * 2 ^ ((-2 : ℤ) - 52) * 3.5) * 255))
      = 298 := by
  have h2 : round_f64 ((6004799503160662 : ℝ) * 2 ^ ((-2 : ℤ) - 52) * 3.5)
      = ((5254199565265579 : ℤ) : ℝ) * 2 ^ ((0 : ℤ) - 52) :=
    round_f64_eq_of_near_pos (by norm_num) (by norm_num) (by norm_num) (by norm_num)
      (by norm_num)
  have h3 : round_f64 (((5254199565265579 : ℤ) : ℝ) * 2 ^ ((0 : ℤ) - 52) * 255)
      = ((5233675348213760 : ℤ) : ℝ) * 2 ^ ((8 : ℤ) - 52) :=
    round_f64_eq_of_near_pos (by norm_num) (by norm_num) (by norm_num) (by norm_num)
      (by norm_num)
  rw [h2, h3, lround_of_nonneg (by norm_num), Int.floor_eq_iff]
  norm_num

theorem round_f64_one_third :
    round_f64 ((1 : ℝ) / 3) = (6004799503160661 : ℝ) * 2 ^ ((-2 : ℤ) - 52) := by
  have h : round_f64 ((1 : ℝ) / 3) = ((6004799503160661 : ℤ) : ℝ) * 2 ^ ((-2 : ℤ) - 52) :=
    round_f64_eq_of_near_pos (by norm_num) (by norm_num) (by norm_num) (by norm_num)
      (by norm_num)
  rw [h]
  norm_num

/-- With accumulated value `1` and total weight `3` the rounded quotient is
below `1 / 3`, the scaled value is below `297.5`, and the intensity is `297`. -/
theorem scaled_rounded_one_third : scaled_rounded 1 3 = 297 := by
  unfold scaled_rounded
  rw [if_neg (by norm_num), round_f64_one_third]
  exact scaled_chain_below_third

theorem get_pixel_channel_one : get_pixel_channel 1 1 = 125 := by
  have h := get_pixel_channel_cast 1 1
  rw [scaled_rounded_one] at h
  norm_num at h
  exact_mod_cast h

theorem get_pixel_channel_one_third : get_pixel_channel 1 3 = 41 := by
  have h := get_pixel_channel_cast 1 3
  rw [scaled_rounded_one_third] at h
  norm_num at h
  exact_mod_cast h

/-! ## Monotonicity and sign of the metrics -/

theorem mul_self_le_of_abs_le {a b : ℤ} (h : |a| ≤ |b|) : a * a ≤ b * b := by
  have h1 := mul_self_le_mul_self (abs_nonneg a) h
  rwa [abs_mul_abs_self, abs_mul_abs_self] at h1

theorem euclidean_dist2_nonneg (d : point) : 0 ≤ euclidean_dist2 d := by
  unfold euclidean_dist2
  exact_mod_cast add_nonneg (mul_self_nonneg d.x) (mul_self_nonneg d.y)

theorem euclidean_dist2_mono {d d' : point} (hx : |d.x| ≤ |d'.x|) (hy : |d.y| ≤ |d'.y|) :
    euclidean_dist2 d ≤ euclidean_dist2 d' := by
  unfold euclidean_dist2
  exact_mod_cast add_le_add (mul_self_le_of_abs_le hx) (mul_self_le_of_abs_le hy)

theorem dist_delta_nonneg (t : dist_type) (d : point) : 0 ≤ dist_delta t d := by
  cases t
  · show (0 : ℝ) ≤ manhattan_dist d
    unfold manhattan_dist
    exact_mod_cast add_nonneg (abs_nonneg d.x) (abs_nonneg d.y)
  · exact Real.sqrt_nonneg _
  · exact euclidean_dist2_nonneg d
  · show (0 : ℝ) ≤ chebyshev_dist d
    unfold chebyshev_dist
    exact_mod_cast le_max_of_le_left (abs_nonneg d.x)
  · show (0 : ℝ) ≤ min_xy_dist d
    unfold min_xy_dist
    exact_mod_cast le_min (abs_nonneg d.x) (abs_nonneg d.y)

theorem dist_delta_mono (t : dist_type) {d d' : point} (hx : |d.x| ≤ |d'.x|)
    (hy : |d.y| ≤ |d'.y|) : dist_delta t d ≤ dist_delta t d' := by
  cases t
  · show manhattan_dist d ≤ manhattan_dist d'
    unfold manhattan_dist
    exact_mod_cast add_le_add hx hy
  · exact Real.sqrt_le_sqrt (euclidean_dist2_mono hx hy)
  · exact euclidean_dist2_mono hx hy
  · show chebyshev_dist d ≤ chebyshev_dist d'
    unfold chebyshev_dist
    exact_mod_cast max_le_max hx hy
  · show min_xy_dist d ≤ min_xy_dist d'
    unfold min_xy_dist
    exact_mod_cast min_le_min hx hy

theorem dist_delta_pos (t : dist_type) {d : point} (hx : d.x ≠ 0) (hy : d.y ≠ 0) :
    0 < dist_delta t d := by
  have ax : 0 < |d.x| := abs_pos.mpr hx
  have ay : 0 < |d.y| := abs_pos.mpr hy
  have h2 : 0 < euclidean_dist2 d := by
    unfold euclidean_dist2
    exact_mod_cast add_pos (mul_self_pos.mpr hx) (mul_self_pos.mpr hy)
  cases t
  · show (0 : ℝ) < manhattan_dist d
    unfold manhattan_dist
    exact_mod_cast add_pos ax ay
  · exact Real.sqrt_pos.mpr h2
  · exact h2
  · show (0 : ℝ) < chebyshev_dist d
    unfold chebyshev_dist
    exact_mod_cast lt_max_of_lt_left ax
  · show (0 : ℝ) < min_xy_dist d
    unfold min_xy_dist
    exact_mod_cast lt_min ax ay

theorem dist_delta_zero (t : dist_type) : dist_delta t ⟨0, 0⟩ = 0 := by
  cases t <;>
    simp [dist_delta, manhattan_dist, euclidean_dist, euclidean_dist2, chebyshev_dist,
      min_xy_dist]

theorem dist_delta_pos_of_ne (t : dist_type) (ht : t ≠ dist_type.MIN_XY) {d : point}
    (h : d.x ≠ 0 ∨ d.y ≠ 0) : 0 < dist_delta t d := by
  have hsum : 0 < |d.x| + |d.y| := by
    rcases h with h | h
    · exact add_pos_of_pos_of_nonneg (abs_pos.mpr h) (abs_nonneg _)
    · exact add_pos_of_nonneg_of_pos (abs_nonneg _) (abs_pos.mpr h)
  have hmax : 0 < max |d.x| |d.y| := by
    rcases h with h | h
    · exact lt_max_of_lt_left (abs_pos.mpr h)
    · exact lt_max_of_lt_right (abs_pos.mpr h)
  have h2 : 0 < euclidean_dist2 d := by
    unfold euclidean_dist2
    have : 0 < d.x * d.x + d.y * d.y := by
      rcases h with h | h
      · exact add_pos_of_pos_of_nonneg (mul_self_pos.mpr h) (mul_self_nonneg _)
      · exact add_pos_of_nonneg_of_pos (mul_self_nonneg _) (mul_self_pos.mpr h)
    exact_mod_cast this
  cases t
  · show (0 : ℝ) < manhattan_dist d
    unfold manhattan_dist
    exact_mod_cast hsum
  · exact Real.sqrt_pos.mpr h2
  · exact h2
  · show (0 : ℝ) < chebyshev_dist d
    unfold chebyshev_dist
    exact_mod_cast hmax
  · exact absurd rfl ht

/-! ## The constructor and the distance of a source -/

@[simp] theorem point_sub_x (a b : point) : (a - b).x = a.x - b.x := rfl

@[simp] theorem point_sub_y (a b : point) : (a - b).y = a.y - b.y := rfl

@[simp] theorem point_add_x (a b : point) : (a + b).x = a.x + b.x := rfl

@[simp] theorem point_add_y (a b : point) : (a + b).y = a.y + b.y := rfl

theorem init_max_dist_nowrap (width height : ℤ) (t : dist_type) (pnt : point)
    (rweight gweight bweight : ℝ) (reverse : Bool) :
    (dist_entry.init width height t pnt rweight gweight bweight reverse false).max_dist
      = dist_delta t ⟨max pnt.x (width - pnt.x), max pnt.y (height - pnt.y)⟩ := by
  simp [dist_entry.init]

theorem init_max_dist_wrap (width height : ℤ) (t : dist_type) (pnt : point)
    (rweight gweight bweight : ℝ) (reverse : Bool) :
    (dist_entry.init width height t pnt rweight gweight bweight reverse true).max_dist
      = dist_delta t ⟨Int.tdiv width 2, Int.tdiv height 2⟩ := by
  simp [dist_entry.init]

theorem init_dist_to_point_nowrap (width height : ℤ) (t : dist_type) (pnt : point)
    (rweight gweight bweight : ℝ) (reverse : Bool) (p : point) :
    (dist_entry.init width height t pnt rweight gweight bweight reverse false).dist_to_point p
      = dist_delta t (pnt - p) := by
  simp [dist_entry.init, dist_entry.dist_to_point]

theorem init_scaled_dist (width height : ℤ) (t : dist_type) (pnt : point)
    (rweight gweight bweight : ℝ) (reverse wrap : Bool) (p : point) :
    (dist_entry.init width height t pnt rweight gweight bweight reverse wrap).scaled_dist p
      = if reverse then
          1 - (dist_entry.init width height t pnt rweight gweight bweight reverse wrap).dist_to_point
                p /
              (dist_entry.init width height t pnt rweight gweight bweight reverse wrap).max_dist
        else
          (dist_entry.init width height t pnt rweight gweight bweight reverse wrap).dist_to_point
              p /
            (dist_entry.init width height t pnt rweight gweight bweight reverse wrap).max_dist := by
  simp [dist_entry.scaled_dist, dist_entry.init]

theorem init_max_dist_nowrap_pos (width height : ℤ) (t : dist_type) (pnt : point)
    (rweight gweight bweight : ℝ) (reverse : Bool)
    (hx : pnt.x < width) (hy : pnt.y < height) :
    0 < (dist_entry.init width height t pnt rweight gweight bweight reverse false).max_dist := by
  rw [init_max_dist_nowrap]
  apply dist_delta_pos
  · show max pnt.x (width - pnt.x) ≠ 0
    have := le_max_right pnt.x (width - pnt.x)
    omega
  · show max pnt.y (height - pnt.y) ≠ 0
    have := le_max_right pnt.y (height - pnt.y)
    omega

theorem init_dist_le_max_dist_nowrap (width height : ℤ) (t : dist_type) (pnt : point)
    (rweight gweight bweight : ℝ) (reverse : Bool) (p : point)
    (hx0 : 0 ≤ pnt.x) (hy0 : 0 ≤ pnt.y)
    (hpx0 : 0 ≤ p.x) (hpx : p.x < width) (hpy0 : 0 ≤ p.y) (hpy : p.y < height) :
    (dist_entry.init width height t pnt rweight gweight bweight reverse false).dist_to_point p
      ≤ (dist_entry.init width height t pnt rweight gweight bweight reverse false).max_dist := by
  rw [init_max_dist_nowrap, init_dist_to_point_nowrap]
  apply dist_delta_mono
  · show |pnt.x - p.x| ≤ |max pnt.x (width - pnt.x)|
    have h1 := le_max_left pnt.x (width - pnt.x)
    have h2 := le_max_right pnt.x (width - pnt.x)
    rw [abs_of_nonneg (le_trans hx0 h1), abs_le]
    constructor <;> omega
  · show |pnt.y - p.y| ≤ |max pnt.y (height - pnt.y)|
    have h1 := le_max_left pnt.y (height - pnt.y)
    have h2 := le_max_right pnt.y (height - pnt.y)
    rw [abs_of_nonneg (le_trans hy0 h1), abs_le]
    constructor <;> omega

/-! ## Values on the diagonal -/

/-- An observation that no step of a loop changes is unchanged by the loop. -/
theorem foldl_obs_unchanged {S K V : Type} (step : S → K → S) (obs : S → V) (Inv : S → Prop)
    (ks : List K)
    (hinv : ∀ s k, k ∈ ks → Inv s → Inv (step s k))
    (hmiss : ∀ s k, k ∈ ks → Inv s → obs (step s k) = obs s)
    (s : S) (hs : Inv s) :
    Inv (ks.foldl step s) ∧ obs (ks.foldl step s) = obs s := by
  induction ks generalizing s with
  | nil => exact ⟨hs, rfl⟩
  | cons k ks ih =>
    have hk : k ∈ k :: ks := List.mem_cons_self k ks
    have ih' := ih (fun s' k' hk' => hinv s' k' (List.mem_cons_of_mem k hk'))
      (fun s' k' hk' => hmiss s' k' (List.mem_cons_of_mem k hk'))
      (step s k) (hinv s k hk hs)
    rw [List.foldl_cons]
    exact ⟨ih'.1, ih'.2.trans (hmiss s k hk hs)⟩

/-- An observation that exactly one step of a loop changes, the step at `k0`,
which the loop takes once, is changed by the loop as by that step. -/
theorem foldl_obs_at {S K V : Type} (step : S → K → S) (obs : S → V) (F : V → V)
    (Inv : S → Prop) (ks : List K) (k0 : K) (hnd : ks.Nodup) (hk0 : k0 ∈ ks)
    (hinv : ∀ s k, k ∈ ks → Inv s → Inv (step s k))
    (hhit : ∀ s, Inv s → obs (step s k0) = F (obs s))
    (hmiss : ∀ s k, k ∈ ks → k ≠ k0 → Inv s → obs (step s k) = obs s)
    (s : S) (hs : Inv s) :
    obs (ks.foldl step s) = F (obs s) := by
  induction ks generalizing s with
  | nil => exact absurd hk0 (List.not_mem_nil k0)
  | cons k ks ih =>
    have hk : k ∈ k :: ks := List.mem_cons_self k ks
    have hnd' := List.nodup_cons.mp hnd
    rw [List.foldl_cons]
    by_cases hkk : k = k0
    · subst hkk
      have hrest := foldl_obs_unchanged step obs Inv ks
        (fun s' k' hk' => hinv s' k' (List.mem_cons_of_mem k hk'))
        (fun s' k' hk' hs' => hmiss s' k' (List.mem_cons_of_mem k hk')
          (fun h => hnd'.1 (h ▸ hk')) hs')
        (step s k) (hinv s k hk hs)
      exact hrest.2.trans (hhit s hs)
    · have hmem : k0 ∈ ks := by
        rcases List.mem_cons.mp hk0 with h | h
        · exact absurd h.symm hkk
        · exact h
      have ih' := ih hnd'.2 hmem
        (fun s' k' hk' => hinv s' k' (List.mem_cons_of_mem k hk'))
        (fun s' k' hk' => hmiss s' k' (List.mem_cons_of_mem k hk'))
        (step s k) (hinv s k hk hs)
      rw [ih', hmiss s k hk hkk hs]

theorem mem_loop_range {n x : ℤ} : x ∈ loop_range n ↔ 0 ≤ x ∧ x < n := by
  unfold loop_range
  simp only [List.mem_map, List.mem_range]
  constructor
  · rintro ⟨k, hk, rfl⟩
    constructor
    · exact Int.ofNat_nonneg k
    · show ((k : ℕ) : ℤ) < n
      omega
  · rintro ⟨h0, h1⟩
    refine ⟨x.toNat, ?_, ?_⟩
    · omega
    · show ((x.toNat : ℕ) : ℤ) = x
      omega

theorem nodup_loop_range (n : ℤ) : (loop_range n).Nodup := by
  unfold loop_range
  exact (List.nodup_range _).map (fun a b h => Int.ofNat.inj h)

/-! ## The slots of the accumulator -/

theorem pixel_index_lt {W H x y : ℤ} (hx0 : 0 ≤ x) (hx : x < W) (hy0 : 0 ≤ y) (hy : y < H) :
    (x + y * W).toNat < (W * H).toNat := by
  have h1 : x + y * W < W * H := by nlinarith
  have h2 : 0 ≤ x + y * W := by nlinarith
  omega

theorem pixel_index_inj {W x y x' y' : ℤ} (hx0 : 0 ≤ x) (hx : x < W) (hy0 : 0 ≤ y)
    (hx0' : 0 ≤ x') (hx' : x' < W) (hy0' : 0 ≤ y')
    (h : (x + y * W).toNat = (x' + y' * W).toNat) : x = x' ∧ y = y' := by
  have h2 : 0 ≤ x + y * W := by nlinarith
  have h2' : 0 ≤ x' + y' * W := by nlinarith
  have h3 : x + y * W = x' + y' * W := by omega
  have hy : y = y' := by
    rcases lt_trichotomy y y' with hlt | heq | hgt
    · have : (y + 1) * W ≤ y' * W := by nlinarith
      nlinarith
    · exact heq
    · have : (y' + 1) * W ≤ y * W := by nlinarith
      nlinarith
  subst hy
  exact ⟨by omega, rfl⟩

theorem getD_set_self {α : Type} (l : List α) (i : ℕ) (a d : α) (h : i < l.length) :
    (l.set i a).getD i d = a := by
  simp [List.getD_eq_getElem?_getD, h]

theorem getD_set_ne {α : Type} (l : List α) (i j : ℕ) (a d : α) (h : i ≠ j) :
    (l.set i a).getD j d = l.getD j d := by
  simp [List.getD_eq_getElem?_getD, h]

theorem add_to_pixel_shaped {W H : ℤ} {wt : pre_pixel} {im : pre_image}
    (h : im.shaped W H wt) (x y : ℤ) (r g b : ℝ) : (im.add_to_pixel x y r g b).shaped W H wt := by
  obtain ⟨h1, h2, h3⟩ := h
  refine ⟨h1, ?_, h3⟩
  show (im.pixels.set _ _).length = _
  rw [List.length_set]
  exact h2

theorem add_to_pixel_hit {W H : ℤ} {wt : pre_pixel} {im : pre_image} (h : im.shaped W H wt)
    {x y : ℤ} (hx0 : 0 ≤ x) (hx : x < W) (hy0 : 0 ≤ y) (hy : y < H) (r g b : ℝ) :
    (im.add_to_pixel x y r g b).pixel_ref x y
      = ⟨round_f64 ((im.pixel_ref x y).r + r), round_f64 ((im.pixel_ref x y).g + g),
          round_f64 ((im.pixel_ref x y).b + b)⟩ := by
  have hlt : im.pixel_index x y < im.pixels.length := by
    unfold pre_image.pixel_index
    rw [h.1, h.2.1]
    exact pixel_index_lt hx0 hx hy0 hy
  show (im.pixels.set (im.pixel_index x y) _).getD (im.pixel_index x y) _ = _
  rw [getD_set_self _ _ _ _ hlt]

theorem add_to_pixel_miss {W H : ℤ} {wt : pre_pixel} {im : pre_image} (h : im.shaped W H wt)
    {x y x' y' : ℤ} (hx0 : 0 ≤ x) (hx : x < W) (hy0 : 0 ≤ y)
    (hx0' : 0 ≤ x') (hx' : x' < W) (hy0' : 0 ≤ y') (hne : ¬ (x = x' ∧ y = y')) (r g b : ℝ) :
    (im.add_to_pixel x y r g b).pixel_ref x' y' = im.pixel_ref x' y' := by
  have hidx : im.pixel_index x y ≠ im.pixel_index x' y' := by
    unfold pre_image.pixel_index
    rw [h.1]
    exact fun heq => hne (pixel_index_inj hx0 hx hy0 hx0' hx' hy0' heq)
  show (im.pixels.set (im.pixel_index x y) _).getD (im.pixel_index x' y') _ = _
  rw [getD_set_ne _ _ _ _ _ hidx]
  rfl

theorem add_all_to_pixel_shaped {W H : ℤ} {wt : pre_pixel} (entries : List dist_entry)
    (x y : ℤ) (im : pre_image) (h : im.shaped W H wt) :
    (add_all_to_pixel im entries x y).shaped W H wt := by
  unfold add_all_to_pixel
  induction entries generalizing im with
  | nil => exact h
  | cons e es ih =>
    rw [List.foldl_cons]
    exact ih _ (add_to_pixel_shaped h x y _ _ _)

theorem add_all_to_pixel_hit {W H : ℤ} {wt : pre_pixel} (entries : List dist_entry)
    {x y : ℤ} (hx0 : 0 ≤ x) (hx : x < W) (hy0 : 0 ≤ y) (hy : y < H)
    (im : pre_image) (h : im.shaped W H wt) :
    (add_all_to_pixel im entries x y).pixel_ref x y
      = entries.foldl (add_contribution ⟨x, y⟩) (im.pixel_ref x y) := by
  unfold add_all_to_pixel
  induction entries generalizing im with
  | nil => rfl
  | cons e es ih =>
    rw [List.foldl_cons, List.foldl_cons, ih _ (add_to_pixel_shaped h x y _ _ _),
      add_to_pixel_hit h hx0 hx hy0 hy]
    rfl

theorem add_all_to_pixel_miss {W H : ℤ} {wt : pre_pixel} (entries : List dist_entry)
    {x y x' y' : ℤ} (hx0 : 0 ≤ x) (hx : x < W) (hy0 : 0 ≤ y)
    (hx0' : 0 ≤ x') (hx' : x' < W) (hy0' : 0 ≤ y') (hne : ¬ (x = x' ∧ y = y'))
    (im : pre_image) (h : im.shaped W H wt) :
    (add_all_to_pixel im entries x y).pixel_ref x' y' = im.pixel_ref x' y' := by
  unfold add_all_to_pixel
  induction entries generalizing im with
  | nil => rfl
  | cons e es ih =>
    rw [List.foldl_cons, ih _ (add_to_pixel_shaped h x y _ _ _),
      add_to_pixel_miss h hx0 hx hy0 hx0' hx' hy0' hne]

/-! ## The loops of `set_png_bytes` -/

theorem accumulate_row {W H : ℤ} {wt : pre_pixel} (entries : List dist_entry)
    {x0 y0 : ℤ} (hx0 : 0 ≤ x0) (hx : x0 < W) (hy0 : 0 ≤ y0) (hy : y0 < H)
    {y : ℤ} (hyr : y ∈ loop_range H) (im : pre_image) (h : im.shaped W H wt) :
    ((loop_range W).foldl (fun pim x => add_all_to_pixel pim entries x y) im).shaped W H wt ∧
      ((loop_range W).foldl (fun pim x => add_all_to_pixel pim entries x y) im).pixel_ref x0 y0
        = if y = y0 then entries.foldl (add_contribution ⟨x0, y0⟩) (im.pixel_ref x0 y0)
          else im.pixel_ref x0 y0 := by
  have hyr' := mem_loop_range.mp hyr
  have hinv : ∀ (s : pre_image) (k : ℤ), k ∈ loop_range W → s.shaped W H wt →
      (add_all_to_pixel s entries k y).shaped W H wt :=
    fun s k _ hs => add_all_to_pixel_shaped entries k y s hs
  constructor
  · exact (foldl_obs_unchanged (fun pim x => add_all_to_pixel pim entries x y)
      (fun _ => ()) (pre_image.shaped W H wt) (loop_range W) hinv
      (fun _ _ _ _ => rfl) im h).1
  · by_cases hyy : y = y0
    · subst hyy
      rw [if_pos rfl]
      exact foldl_obs_at (fun pim x => add_all_to_pixel pim entries x y)
        (fun s => s.pixel_ref x0 y) (fun px => entries.foldl (add_contribution ⟨x0, y⟩) px)
        (pre_image.shaped W H wt) (loop_range W) x0 (nodup_loop_range W)
        (mem_loop_range.mpr ⟨hx0, hx⟩) hinv
        (fun s hs => add_all_to_pixel_hit entries hx0 hx hy0 hy s hs)
        (fun s k hk hne hs =>
          add_all_to_pixel_miss entries (mem_loop_range.mp hk).1 (mem_loop_range.mp hk).2
            hy0 hx0 hx hy0 (fun hh => hne hh.1) s hs)
        im h
    · rw [if_neg hyy]
      exact (foldl_obs_unchanged (fun pim x => add_all_to_pixel pim entries x y)
        (fun s => s.pixel_ref x0 y0) (pre_image.shaped W H wt) (loop_range W) hinv
        (fun s k hk hs =>
          add_all_to_pixel_miss entries (mem_loop_range.mp hk).1 (mem_loop_range.mp hk).2
            hyr'.1 hx0 hx hy0 (fun hh => hyy hh.2) s hs)
        im h).2

theorem accumulate_shaped {W H : ℤ} {wt : pre_pixel} (entries : List dist_entry)
    (im : pre_image) (h : im.shaped W H wt) : (accumulate im entries W H).shaped W H wt := by
  unfold accumulate
  exact (foldl_obs_unchanged
    (fun pim y => (loop_range W).foldl (fun pim x => add_all_to_pixel pim entries x y) pim)
    (fun _ => ()) (pre_image.shaped W H wt) (loop_range H)
    (fun s k _ hs =>
      (foldl_obs_unchanged (fun pim x => add_all_to_pixel pim entries x k)
        (fun _ => ()) (pre_image.shaped W H wt) (loop_range W)
        (fun s' k' _ hs' => add_all_to_pixel_shaped entries k' k s' hs')
        (fun _ _ _ _ => rfl) s hs).1)
    (fun _ _ _ _ => rfl) im h).1

theorem accumulate_pixel_ref {W H : ℤ} {wt : pre_pixel} (entries : List dist_entry)
    {x0 y0 : ℤ} (hx0 : 0 ≤ x0) (hx : x0 < W) (hy0 : 0 ≤ y0) (hy : y0 < H)
    (im : pre_image) (h : im.shaped W H wt) :
    (accumulate im entries W H).pixel_ref x0 y0
      = entries.foldl (add_contribution ⟨x0, y0⟩) (im.pixel_ref x0 y0) := by
  unfold accumulate
  exact foldl_obs_at
    (fun pim y => (loop_range W).foldl (fun pim x => add_all_to_pixel pim entries x y) pim)
    (fun s => s.pixel_ref x0 y0) (fun px => entries.foldl (add_contribution ⟨x0, y0⟩) px)
    (pre_image.shaped W H wt) (loop_range H) y0 (nodup_loop_range H)
    (mem_loop_range.mpr ⟨hy0, hy⟩)
    (fun s k hk hs => (accumulate_row entries hx0 hx hy0 hy hk s hs).1)
    (fun s hs => by
      have := (accumulate_row entries hx0 hx hy0 hy (mem_loop_range.mpr ⟨hy0, hy⟩) s hs).2
      rwa [if_pos rfl] at this)
    (fun s k hk hne hs => by
      have := (accumulate_row entries hx0 hx hy0 hy hk s hs).2
      rwa [if_neg hne] at this)
    im h

theorem add_all_weights_eq (entries : List dist_entry) (im : pre_image) :
    add_all_weights im entries
      = { im with
          rweight := (entries.foldl add_weight ⟨im.rweight, im.gweight, im.bweight⟩).r
          gweight := (entries.foldl add_weight ⟨im.rweight, im.gweight, im.bweight⟩).g
          bweight := (entries.foldl add_weight ⟨im.rweight, im.gweight, im.bweight⟩).b } := by
  unfold add_all_weights
  induction entries generalizing im with
  | nil => rfl
  | cons e es ih =>
    rw [List.foldl_cons, List.foldl_cons, ih]
    rfl

theorem add_all_weights_init_shaped (entries : List dist_entry) (W H : ℤ) :
    (add_all_weights (pre_image.init W H) entries).shaped W H (weight_sum entries) := by
  rw [add_all_weights_eq]
  refine ⟨rfl, ?_, rfl, rfl, rfl⟩
  show (List.replicate _ _).length = _
  rw [List.length_replicate]

theorem add_all_weights_init_pixel_ref (entries : List dist_entry) (W H x y : ℤ) :
    (add_all_weights (pre_image.init W H) entries).pixel_ref x y = ⟨0, 0, 0⟩ := by
  rw [add_all_weights_eq]
  show (List.replicate _ _).getD _ _ = _
  rw [List.getD_eq_getElem?_getD, List.getElem?_replicate]
  split_ifs <;> rfl

/-- The accumulator after the first two loops of `set_png_bytes`, read through
`get_pixel` at an in-canvas pixel. -/
theorem accumulate_get_pixel (entries : List dist_entry) {W H x y : ℤ}
    (hx0 : 0 ≤ x) (hx : x < W) (hy0 : 0 ≤ y) (hy : y < H) :
    (accumulate (add_all_weights (pre_image.init W H) entries) entries W H).get_pixel x y
      = composite_pixel entries x y := by
  have hsh := add_all_weights_init_shaped entries W H
  have hacc := accumulate_shaped entries _ hsh
  have href := accumulate_pixel_ref entries hx0 hx hy0 hy _ hsh
  rw [add_all_weights_init_pixel_ref] at href
  unfold pre_image.get_pixel composite_pixel pixel_sum
  simp only [href, hacc.2.2.1, hacc.2.2.2.1, hacc.2.2.2.2]

theorem write_pixels_row (pimage : pre_image) (W : ℤ) (x0 y0 y : ℤ) (img : png_image) :
    ((loop_range W).foldl (fun img x => img.set_pixel x y (pimage.get_pixel x y)) img).pix x0 y0
      = if (0 ≤ x0 ∧ x0 < W) ∧ y0 = y then pimage.get_pixel x0 y0 else img.pix x0 y0 := by
  by_cases hc : (0 ≤ x0 ∧ x0 < W) ∧ y0 = y
  · obtain ⟨hx, rfl⟩ := hc
    rw [if_pos ⟨hx, rfl⟩]
    exact foldl_obs_at (fun img x => img.set_pixel x y0 (pimage.get_pixel x y0))
      (fun s => s.pix x0 y0) (fun _ => pimage.get_pixel x0 y0) (fun _ => True)
      (loop_range W) x0 (nodup_loop_range W) (mem_loop_range.mpr hx)
      (fun _ _ _ _ => trivial)
      (fun s _ => by
        show (if x0 = x0 ∧ y0 = y0 then _ else _) = _
        rw [if_pos ⟨rfl, rfl⟩])
      (fun s k _ hne _ => by
        have : ¬ (x0 = k ∧ y0 = y0) := fun hh => hne hh.1.symm
        show (if x0 = k ∧ y0 = y0 then _ else _) = _
        rw [if_neg this])
      img trivial
  · rw [if_neg hc]
    exact (foldl_obs_unchanged (fun img x => img.set_pixel x y (pimage.get_pixel x y))
      (fun s => s.pix x0 y0) (fun _ => True) (loop_range W)
      (fun _ _ _ _ => trivial)
      (fun s k hk _ => by
        have : ¬ (x0 = k ∧ y0 = y) := fun hh => hc ⟨hh.1 ▸ mem_loop_range.mp hk, hh.2⟩
        show (if x0 = k ∧ y0 = y then _ else _) = _
        rw [if_neg this])
      img trivial).2

theorem write_pixels_pix (pimage : pre_image) (W H : ℤ) (x0 y0 : ℤ) (img : png_image) :
    (write_pixels img pimage W H).pix x0 y0
      = if (0 ≤ x0 ∧ x0 < W) ∧ (0 ≤ y0 ∧ y0 < H) then pimage.get_pixel x0 y0
        else img.pix x0 y0 := by
  unfold write_pixels
  by_cases hc : (0 ≤ x0 ∧ x0 < W) ∧ (0 ≤ y0 ∧ y0 < H)
  · rw [if_pos hc]
    exact foldl_obs_at
      (fun img y =>
        (loop_range W).foldl (fun img x => img.set_pixel x y (pimage.get_pixel x y)) img)
      (fun s => s.pix x0 y0) (fun _ => pimage.get_pixel x0 y0) (fun _ => True)
      (loop_range H) y0 (nodup_loop_range H) (mem_loop_range.mpr hc.2)
      (fun _ _ _ _ => trivial)
      (fun s _ => by
        show ((loop_range W).foldl _ s).pix x0 y0 = _
        rw [write_pixels_row, if_pos ⟨hc.1, rfl⟩])
      (fun s k _ hne _ => by
        have : ¬ ((0 ≤ x0 ∧ x0 < W) ∧ y0 = k) := fun hh => hne hh.2.symm
        show ((loop_range W).foldl _ s).pix x0 y0 = _
        rw [write_pixels_row, if_neg this])
      img trivial
  · rw [if_neg hc]
    exact (foldl_obs_unchanged
      (fun img y =>
        (loop_range W).foldl (fun img x => img.set_pixel x y (pimage.get_pixel x y)) img)
      (fun s => s.pix x0 y0) (fun _ => True) (loop_range H)
      (fun _ _ _ _ => trivial)
      (fun s k hk _ => by
        have : ¬ ((0 ≤ x0 ∧ x0 < W) ∧ y0 = k) :=
          fun hh => hc ⟨hh.1, hh.2 ▸ mem_loop_range.mp hk⟩
        show ((loop_range W).foldl _ s).pix x0 y0 = _
        rw [write_pixels_row, if_neg this])
      img trivial).2

theorem write_pixels_size (pimage : pre_image) (W H : ℤ) (img : png_image) :
    (write_pixels img pimage W H).width = img.width ∧
      (write_pixels img pimage W H).height = img.height := by
  unfold write_pixels
  exact (foldl_obs_unchanged
    (fun img y =>
      (loop_range W).foldl (fun img x => img.set_pixel x y (pimage.get_pixel x y)) img)
    (fun s => (s.width, s.height)) (fun s => s.width = img.width ∧ s.height = img.height)
    (loop_range H)
    (fun s k _ hs =>
      (foldl_obs_unchanged (fun img x => img.set_pixel x k (pimage.get_pixel x k))
        (fun _ => ()) (fun s => s.width = img.width ∧ s.height = img.height) (loop_range W)
        (fun _ _ _ hs' => hs') (fun _ _ _ _ => rfl) s hs).1)
    (fun s k _ hs => by
      have := (foldl_obs_unchanged (fun img x => img.set_pixel x k (pimage.get_pixel x k))
        (fun _ => ()) (fun s' => s'.width = s.width ∧ s'.height = s.height) (loop_range W)
        (fun _ _ _ hs' => hs') (fun _ _ _ _ => rfl) s ⟨rfl, rfl⟩).1
      show (_, _) = (_, _)
      rw [this.1, this.2])
    img ⟨rfl, rfl⟩).1

/-- Every pixel of the frame `set_png_bytes` produces: inside the canvas the
composite of the sources, outside it what the image held before. -/
theorem set_png_bytes_pix (image : png_image) (entries : List dist_entry) (x y : ℤ) :
    (set_png_bytes image entries).pix x y
      = if (0 ≤ x ∧ x < (image.width : ℤ)) ∧ (0 ≤ y ∧ y < (image.height : ℤ)) then
          composite_pixel entries x y
        else image.pix x y := by
  unfold set_png_bytes
  simp only []
  rw [write_pixels_pix]
  by_cases hc : (0 ≤ x ∧ x < (image.width : ℤ)) ∧ (0 ≤ y ∧ y < (image.height : ℤ))
  · rw [if_pos hc, if_pos hc, accumulate_get_pixel entries hc.1.1 hc.1.2 hc.2.1 hc.2.2]
  · rw [if_neg hc, if_neg hc]

theorem set_png_bytes_size (image : png_image) (entries : List dist_entry) :
    (set_png_bytes image entries).width = image.width ∧
      (set_png_bytes image entries).height = image.height := by
  unfold set_png_bytes
  exact write_pixels_size _ _ _ _

/-! ## The composite as a function of the sources -/

theorem get_pixel_channel_zero_weight (acc : ℝ) : get_pixel_channel acc 0 = 0 := by
  have h := get_pixel_channel_cast acc 0
  rw [scaled_rounded_zero_weight] at h
  exact_mod_cast h

theorem get_pixel_channel_zero_acc {weight : ℝ} (hw : weight ≠ 0) :
    get_pixel_channel 0 weight = 0 := by
  have h := get_pixel_channel_cast 0 weight
  rw [scaled_rounded_zero_acc hw] at h
  exact_mod_cast h

theorem composite_pixel_nil (x y : ℤ) : composite_pixel [] x y = ⟨0, 0, 0⟩ := by
  unfold composite_pixel weight_sum
  simp only [List.foldl_nil, get_pixel_channel_zero_weight]

theorem png_image_ext {a b : png_image} (hw : a.width = b.width) (hh : a.height = b.height)
    (hp : ∀ x y, a.pix x y = b.pix x y) : a = b := by
  cases a
  cases b
  simp only [png_image.mk.injEq]
  exact ⟨hw, hh, funext fun x => funext fun y => hp x y⟩

/-- Two rounded additions from zero: the first stores its rounded operand. -/
theorem round_f64_zero_add_add (a b : ℝ) (ha : round_f64 a = a) :
    round_f64 (round_f64 (0 + a) + b) = round_f64 (a + b) := by
  rw [zero_add, ha]

theorem pixel_sum_pair (e1 e2 : dist_entry) (p : point) :
    pixel_sum [e1, e2] p = pixel_sum [e2, e1] p := by
  unfold pixel_sum
  simp only [List.foldl_cons, List.foldl_nil, add_contribution]
  rw [round_f64_zero_add_add _ _ (round_f64_idem _), round_f64_zero_add_add _ _ (round_f64_idem _),
    round_f64_zero_add_add _ _ (round_f64_idem _), round_f64_zero_add_add _ _ (round_f64_idem _),
    round_f64_zero_add_add _ _ (round_f64_idem _), round_f64_zero_add_add _ _ (round_f64_idem _)]
  rw [add_comm (round_f64 (e1.scaled_dist_f64 p * e1.rweight)),
    add_comm (round_f64 (e1.scaled_dist_f64 p * e1.gweight)),
    add_comm (round_f64 (e1.scaled_dist_f64 p * e1.bweight))]

theorem weight_sum_pair (e1 e2 : dist_entry)
    (h1 : is_f64 e1.rweight ∧ is_f64 e1.gweight ∧ is_f64 e1.bweight)
    (h2 : is_f64 e2.rweight ∧ is_f64 e2.gweight ∧ is_f64 e2.bweight) :
    weight_sum [e1, e2] = weight_sum [e2, e1] := by
  unfold weight_sum
  simp only [List.foldl_cons, List.foldl_nil, add_weight]
  rw [round_f64_zero_add_add _ _ (round_f64_of_is_f64 h1.1),
    round_f64_zero_add_add _ _ (round_f64_of_is_f64 h1.2.1),
    round_f64_zero_add_add _ _ (round_f64_of_is_f64 h1.2.2),
    round_f64_zero_add_add _ _ (round_f64_of_is_f64 h2.1),
    round_f64_zero_add_add _ _ (round_f64_of_is_f64 h2.2.1),
    round_f64_zero_add_add _ _ (round_f64_of_is_f64 h2.2.2)]
  rw [add_comm e1.rweight, add_comm e1.gweight, add_comm e1.bweight]

theorem composite_pixel_pair (e1 e2 : dist_entry)
    (h1 : is_f64 e1.rweight ∧ is_f64 e1.gweight ∧ is_f64 e1.bweight)
    (h2 : is_f64 e2.rweight ∧ is_f64 e2.gweight ∧ is_f64 e2.bweight) (x y : ℤ) :
    composite_pixel [e1, e2] x y = composite_pixel [e2, e1] x y := by
  unfold composite_pixel
  rw [pixel_sum_pair e1 e2, weight_sum_pair e1 e2 h1 h2]

/-- A permutation of a list of at most two elements is the list or its swap. -/
theorem perm_of_length_le_two {α : Type} {l l' : List α} (hlen : l.length ≤ 2)
    (h : l.Perm l') : l' = l ∨ ∃ a b, l = [a, b] ∧ l' = [b, a] := by
  match l, hlen, h with
  | [], _, h => exact Or.inl (List.Perm.nil_eq h).symm
  | [a], _, h => exact Or.inl (List.perm_singleton.mp h.symm)
  | [a, b], _, h =>
    have hl : l'.length = 2 := h.length_eq.symm
    match l', hl, h with
    | [c, d], _, h =>
      have hc : c ∈ [a, b] := h.symm.subset (List.mem_cons_self c [d])
      rcases List.mem_cons.mp hc with hca | hcb
      · subst hca
        have hd := List.perm_singleton.mp (List.Perm.cons_inv h).symm
        exact Or.inl (by rw [hd])
      · have hcb' : c = b := by simpa using hcb
        subst hcb'
        have h' : [a, c].Perm [c, a] := List.Perm.swap c a []
        have hd := List.perm_singleton.mp (List.Perm.cons_inv (h'.symm.trans h)).symm
        exact Or.inr ⟨a, c, rfl, by rw [hd]⟩

theorem composite_pixel_single_red (e : dist_entry) (x y : ℤ) :
    (composite_pixel [e] x y).red
      = get_pixel_channel (round_f64 (0 + round_f64 (e.scaled_dist_f64 ⟨x, y⟩ * e.rweight)))
          (round_f64 (0 + e.rweight)) := rfl

theorem round_f64_one : round_f64 1 = 1 :=
  round_f64_self 1 0 (by norm_num) (by norm_num) (by norm_num) (by norm_num)

theorem round_f64_sqrt_eighteen :
    round_f64 (Real.sqrt 18) = 4776788754394329 / 1125899906842624 := by
  have h : round_f64 (Real.sqrt 18) = ((4776788754394329 : ℤ) : ℝ) * 2 ^ ((2 : ℤ) - 52) := by
    apply round_f64_eq_of_near_pos (by norm_num)
    · exact (Real.le_sqrt' (by norm_num)).mpr (by norm_num)
    · exact (Real.sqrt_lt' (by norm_num)).mpr (by norm_num)
    · exact (Real.lt_sqrt (by norm_num)).mpr (by norm_num)
    · exact (Real.sqrt_lt' (by norm_num)).mpr (by norm_num)
  rw [h]
  norm_num

theorem round_f64_sqrt_thirty_two :
    round_f64 (Real.sqrt 32) = 6369051672525773 / 1125899906842624 := by
  have h : round_f64 (Real.sqrt 32) = ((6369051672525773 : ℤ) : ℝ) * 2 ^ ((2 : ℤ) - 52) := by
    apply round_f64_eq_of_near_pos (by norm_num)
    · exact (Real.le_sqrt' (by norm_num)).mpr (by norm_num)
    · exact (Real.sqrt_lt' (by norm_num)).mpr (by norm_num)
    · exact (Real.lt_sqrt (by norm_num)).mpr (by norm_num)
    · exact (Real.sqrt_lt' (by norm_num)).mpr (by norm_num)
  rw [h]
  norm_num

/-- The `double` quotient `sqrt(18) / sqrt(32)` is `0.7499999999999999`. -/
theorem round_f64_sqrt_quotient :
    round_f64 ((4776788754394329 : ℝ) / 1125899906842624 / (6369051672525773 / 1125899906842624))
      = 6755399441055743 / 9007199254740992 := by
  have h : round_f64
      ((4776788754394329 : ℝ) / 1125899906842624 / (6369051672525773 / 1125899906842624))
      = ((6755399441055743 : ℤ) : ℝ) * 2 ^ ((-1 : ℤ) - 52) :=
    round_f64_eq_of_near_pos (by norm_num) (by norm_num) (by norm_num) (by norm_num)
      (by norm_num)
  rw [h]
  norm_num

theorem round_f64_below_three_quarters :
    round_f64 ((6755399441055743 : ℝ) / 9007199254740992) = 6755399441055743 / 9007199254740992 :=
  round_f64_self 6755399441055743 (-53) (by norm_num) (by norm_num) (by norm_num) (by norm_num)

/-- With the sum `0.7499999999999999` and the total weight `1` the scaled value
is `669.3749999999999` and the intensity is `669`. -/
theorem scaled_rounded_below_three_quarters :
    scaled_rounded (6755399441055743 / 9007199254740992) 1 = 669 := by
  have h2 : round_f64 ((6755399441055743 : ℝ) / 9007199254740992 * 3.5)
      = ((5910974510923775 : ℤ) : ℝ) * 2 ^ ((1 : ℤ) - 52) :=
    round_f64_eq_of_near_pos (by norm_num) (by norm_num) (by norm_num) (by norm_num)
      (by norm_num)
  have h3 : round_f64 (((5910974510923775 : ℤ) : ℝ) * 2 ^ ((1 : ℤ) - 52) * 255)
      = ((5887884766740479 : ℤ) : ℝ) * 2 ^ ((9 : ℤ) - 52) :=
    round_f64_eq_of_near_pos (by norm_num) (by norm_num) (by norm_num) (by norm_num)
      (by norm_num)
  unfold scaled_rounded
  rw [if_neg one_ne_zero, div_one, round_f64_below_three_quarters, h2, h3,
    lround_of_nonneg (by norm_num), Int.floor_eq_iff]
  norm_num

/-- The red bytes the composite of the single Euclidean source at `(0, 0)` with
weights `(1, 0, 0)` has at `(0, 0)` and at `(3, 3)` on the `4 x 4` canvas. -/
theorem composite_euclidean_corner_red :
    (composite_pixel [dist_entry.init 4 4 dist_type.EUCLIDEAN ⟨0, 0⟩ 1 0 0 false false]
        0 0).red = 0 ∧
      (composite_pixel [dist_entry.init 4 4 dist_type.EUCLIDEAN ⟨0, 0⟩ 1 0 0 false false]
        3 3).red = 157 := by
  have hr : (dist_entry.init 4 4 dist_type.EUCLIDEAN ⟨0, 0⟩ 1 0 0 false false).rweight = 1 := rfl
  have hrev : (dist_entry.init 4 4 dist_type.EUCLIDEAN ⟨0, 0⟩ 1 0 0 false false).reverse_dist
      = false := rfl
  have hmax : (dist_entry.init 4 4 dist_type.EUCLIDEAN ⟨0, 0⟩ 1 0 0 false false).max_dist_f64
      = 6369051672525773 / 1125899906842624 := by
    unfold dist_entry.max_dist_f64
    rw [init_max_dist_nowrap]
    have hm : dist_delta dist_type.EUCLIDEAN ⟨max (0 : ℤ) (4 - 0), max (0 : ℤ) (4 - 0)⟩
        = Real.sqrt 32 := by
      show euclidean_dist ⟨max (0 : ℤ) (4 - 0), max (0 : ℤ) (4 - 0)⟩ = _
      unfold euclidean_dist euclidean_dist2
      norm_num
    rw [hm, round_f64_sqrt_thirty_two]
  have hd0 : (dist_entry.init 4 4 dist_type.EUCLIDEAN ⟨0, 0⟩ 1 0 0 false false).dist_to_point_f64
      ⟨0, 0⟩ = 0 := by
    unfold dist_entry.dist_to_point_f64
    rw [init_dist_to_point_nowrap]
    have hd : (⟨0, 0⟩ : point) - ⟨0, 0⟩ = ⟨0, 0⟩ := rfl
    rw [hd, dist_delta_zero, round_f64_zero]
  have hd3 : (dist_entry.init 4 4 dist_type.EUCLIDEAN ⟨0, 0⟩ 1 0 0 false false).dist_to_point_f64
      ⟨3, 3⟩ = 4776788754394329 / 1125899906842624 := by
    unfold dist_entry.dist_to_point_f64
    rw [init_dist_to_point_nowrap]
    have hm : dist_delta dist_type.EUCLIDEAN ((⟨0, 0⟩ : point) - ⟨3, 3⟩) = Real.sqrt 18 := by
      show euclidean_dist ((⟨0, 0⟩ : point) - ⟨3, 3⟩) = _
      unfold euclidean_dist euclidean_dist2
      simp only [point_sub_x, point_sub_y]
      norm_num
    rw [hm, round_f64_sqrt_eighteen]
  constructor
  · rw [composite_pixel_single_red, hr]
    unfold dist_entry.scaled_dist_f64
    simp only [hd0, hrev, Bool.false_eq_true, if_false, zero_div, round_f64_zero, zero_mul,
      zero_add, round_f64_one]
    exact get_pixel_channel_zero_acc one_ne_zero
  · rw [composite_pixel_single_red, hr]
    unfold dist_entry.scaled_dist_f64
    simp only [hd3, hmax, hrev, Bool.false_eq_true, if_false, round_f64_sqrt_quotient, mul_one,
      round_f64_below_three_quarters, zero_add, round_f64_one]
    have h := get_pixel_channel_cast ((6755399441055743 : ℝ) / 9007199254740992) 1
    rw [scaled_rounded_below_three_quarters] at h
    have h' : ((get_pixel_channel ((6755399441055743 : ℝ) / 9007199254740992) 1 : ℕ) : ℤ)
        = 157 := by
      rw [h]
      decide
    exact_mod_cast h'

/-! ## Three sources whose order matters -/

@[simp] theorem init_rweight (width height : ℤ) (t : dist_type) (pnt : point)
    (rweight gweight bweight : ℝ) (reverse wrap : Bool) :
    (dist_entry.init width height t pnt rweight gweight bweight reverse wrap).rweight
      = rweight := rfl

theorem init_scaled_dist_origin (w : ℝ) (reverse : Bool) :
    (dist_entry.init 2 2 dist_type.MANHATTAN ⟨0, 0⟩ w 0 0 reverse false).scaled_dist_f64 ⟨0, 0⟩
      = if reverse then 1 else 0 := by
  have hd : (dist_entry.init 2 2 dist_type.MANHATTAN ⟨0, 0⟩ w 0 0 reverse false).dist_to_point_f64
      ⟨0, 0⟩ = 0 := by
    unfold dist_entry.dist_to_point_f64
    rw [init_dist_to_point_nowrap]
    have hd : (⟨0, 0⟩ : point) - ⟨0, 0⟩ = ⟨0, 0⟩ := rfl
    rw [hd, dist_delta_zero, round_f64_zero]
  have hrev : (dist_entry.init 2 2 dist_type.MANHATTAN ⟨0, 0⟩ w 0 0 reverse false).reverse_dist
      = reverse := rfl
  unfold dist_entry.scaled_dist_f64
  simp only [hd, hrev, zero_div, round_f64_zero, sub_zero, round_f64_one]

theorem round_f64_tenth : round_f64 tenth_f64 = tenth_f64 :=
  round_f64_self 3602879701896397 (-55) (by norm_num) (by norm_num) (by norm_num)
    (by unfold tenth_f64; norm_num)

theorem round_f64_fifth : round_f64 fifth_f64 = fifth_f64 :=
  round_f64_self 3602879701896397 (-54) (by norm_num) (by norm_num) (by norm_num)
    (by unfold fifth_f64; norm_num)

theorem round_f64_three_tenths : round_f64 three_tenths_f64 = three_tenths_f64 :=
  round_f64_self 5404319552844595 (-54) (by norm_num) (by norm_num) (by norm_num)
    (by unfold three_tenths_f64; norm_num)

/-- The `double` sum `(0.1 + 0.2) + 0.3`: both additions are halfway cases and
round up to the even significand, giving `0.6000000000000001`. -/
theorem sum_tenth_fifth_three_tenths :
    round_f64 (round_f64 (tenth_f64 + fifth_f64) + three_tenths_f64)
      = 5404319552844596 / 9007199254740992 := by
  have h1 : round_f64 (tenth_f64 + fifth_f64)
      = ((if (5404319552844595 : ℤ) % 2 = 0 then 5404319552844595
          else 5404319552844595 + 1 : ℤ) : ℝ) * 2 ^ ((-2 : ℤ) - 52) :=
    round_f64_eq_of_tie_pos (by norm_num) (by unfold tenth_f64 fifth_f64; norm_num)
      (by unfold tenth_f64 fifth_f64; norm_num) (by unfold tenth_f64 fifth_f64; norm_num)
  have h1' : round_f64 (tenth_f64 + fifth_f64) = 5404319552844596 / 18014398509481984 := by
    rw [h1]
    norm_num
  have h2 : round_f64 ((5404319552844596 : ℝ) / 18014398509481984 + three_tenths_f64)
      = ((if (5404319552844595 : ℤ) % 2 = 0 then 5404319552844595
          else 5404319552844595 + 1 : ℤ) : ℝ) * 2 ^ ((-1 : ℤ) - 52) :=
    round_f64_eq_of_tie_pos (by norm_num) (by unfold three_tenths_f64; norm_num)
      (by unfold three_tenths_f64; norm_num) (by unfold three_tenths_f64; norm_num)
  rw [h1', h2]
  norm_num

/-- The `double` sum `(0.3 + 0.2) + 0.1`: the first addition is exactly `0.5`,
the second rounds down, giving `0.6`. -/
theorem sum_three_tenths_fifth_tenth :
    round_f64 (round_f64 (three_tenths_f64 + fifth_f64) + tenth_f64)
      = 5404319552844595 / 9007199254740992 := by
  have h1 : round_f64 (three_tenths_f64 + fifth_f64) = 1 / 2 := by
    have hx : three_tenths_f64 + fifth_f64 = 1 / 2 := by
      unfold three_tenths_f64 fifth_f64
      norm_num
    rw [hx]
    exact round_f64_self 1 (-1) (by norm_num) (by norm_num) (by norm_num) (by norm_num)
  have h2 : round_f64 ((1 : ℝ) / 2 + tenth_f64)
      = ((5404319552844595 : ℤ) : ℝ) * 2 ^ ((-1 : ℤ) - 52) :=
    round_f64_eq_of_near_pos (by norm_num) (by unfold tenth_f64; norm_num)
      (by unfold tenth_f64; norm_num) (by unfold tenth_f64; norm_num)
      (by unfold tenth_f64; norm_num)
  rw [h1, h2]
  norm_num

theorem scaled_rounded_fifth_over_high :
    scaled_rounded fifth_f64 (5404319552844596 / 9007199254740992) = 297 := by
  have hq : round_f64 (fifth_f64 / (5404319552844596 / 9007199254740992))
      = (6004799503160661 : ℝ) * 2 ^ ((-2 : ℤ) - 52) := by
    have h : round_f64 (fifth_f64 / (5404319552844596 / 9007199254740992))
        = ((6004799503160661 : ℤ) : ℝ) * 2 ^ ((-2 : ℤ) - 52) :=
      round_f64_eq_of_near_pos (by norm_num) (by unfold fifth_f64; norm_num)
        (by unfold fifth_f64; norm_num) (by unfold fifth_f64; norm_num)
        (by unfold fifth_f64; norm_num)
    rw [h]
    norm_num
  unfold scaled_rounded
  rw [if_neg (by norm_num), hq]
  exact scaled_chain_below_third

theorem scaled_rounded_fifth_over_low :
    scaled_rounded fifth_f64 (5404319552844595 / 9007199254740992) = 298 := by
  have hq : round_f64 (fifth_f64 / (5404319552844595 / 9007199254740992))
      = (6004799503160662 : ℝ) * 2 ^ ((-2 : ℤ) - 52) := by
    have h : round_f64 (fifth_f64 / (5404319552844595 / 9007199254740992))
        = ((6004799503160662 : ℤ) : ℝ) * 2 ^ ((-2 : ℤ) - 52) :=
      round_f64_eq_of_near_pos (by norm_num) (by unfold fifth_f64; norm_num)
        (by unfold fifth_f64; norm_num) (by unfold fifth_f64; norm_num)
        (by unfold fifth_f64; norm_num)
    rw [h]
    norm_num
  unfold scaled_rounded
  rw [if_neg (by norm_num), hq]
  exact scaled_chain_above_third

/-- Three Manhattan sources at `(0, 0)` on the `2 x 2` canvas with red weights
`0.1`, `0.2`, `0.3`, the middle one reversed: the red byte of the composite at
`(0, 0)` in the order given and in the reverse order. -/
theorem composite_three_sources_red :
    (composite_pixel
        [dist_entry.init 2 2 dist_type.MANHATTAN ⟨0, 0⟩ tenth_f64 0 0 false false,
          dist_entry.init 2 2 dist_type.MANHATTAN ⟨0, 0⟩ fifth_f64 0 0 true false,
          dist_entry.init 2 2 dist_type.MANHATTAN ⟨0, 0⟩ three_tenths_f64 0 0 false false]
        0 0).red = 41 ∧
      (composite_pixel
        [dist_entry.init 2 2 dist_type.MANHATTAN ⟨0, 0⟩ three_tenths_f64 0 0 false false,
          dist_entry.init 2 2 dist_type.MANHATTAN ⟨0, 0⟩ fifth_f64 0 0 true false,
          dist_entry.init 2 2 dist_type.MANHATTAN ⟨0, 0⟩ tenth_f64 0 0 false false]
        0 0).red = 42 := by
  constructor
  · show get_pixel_channel _ _ = 41
    simp only [pixel_sum, weight_sum, List.foldl_cons, List.foldl_nil, add_contribution,
      add_weight, init_scaled_dist_origin, init_rweight, if_true, Bool.false_eq_true, if_false,
      zero_mul, one_mul, round_f64_zero, zero_add, add_zero, round_f64_fifth, round_f64_tenth,
      sum_tenth_fifth_three_tenths]
    have h := get_pixel_channel_cast fifth_f64 (5404319552844596 / 9007199254740992)
    rw [scaled_rounded_fifth_over_high] at h
    have h' : ((get_pixel_channel fifth_f64 (5404319552844596 / 9007199254740992) : ℕ) : ℤ)
        = 41 := by
      rw [h]
      decide
    exact_mod_cast h'
  · show get_pixel_channel _ _ = 42
    simp only [pixel_sum, weight_sum, List.foldl_cons, List.foldl_nil, add_contribution,
      add_weight, init_scaled_dist_origin, init_rweight, if_true, Bool.false_eq_true, if_false,
      zero_mul, one_mul, round_f64_zero, zero_add, add_zero, round_f64_fifth,
      round_f64_three_tenths, sum_three_tenths_fifth_tenth]
    have h := get_pixel_channel_cast fifth_f64 (5404319552844595 / 9007199254740992)
    rw [scaled_rounded_fifth_over_low] at h
    have h' : ((get_pixel_channel fifth_f64 (5404319552844595 / 9007199254740992) : ℕ) : ℤ)
        = 42 := by
      rw [h]
      decide
    exact_mod_cast h'

/-! ## The rounded square root -/

theorem euclidean_dist_f64_diag_one :
    euclidean_dist_f64 ⟨1, 1⟩ = 6369051672525773 / 4503599627370496 := by
  have hs : euclidean_dist ⟨1, 1⟩ = Real.sqrt 2 := by
    unfold euclidean_dist euclidean_dist2
    norm_num
  have h : round_f64 (Real.sqrt 2) = ((6369051672525773 : ℤ) : ℝ) * 2 ^ ((0 : ℤ) - 52) := by
    apply round_f64_eq_of_near_pos (by norm_num)
    · rw [zpow_zero]
      exact Real.one_le_sqrt.mpr (by norm_num)
    · exact (Real.sqrt_lt' (by norm_num)).mpr (by norm_num)
    · exact (Real.lt_sqrt (by norm_num)).mpr (by norm_num)
    · exact (Real.sqrt_lt' (by norm_num)).mpr (by norm_num)
  unfold euclidean_dist_f64
  rw [hs, h]
  norm_num

theorem round_f64_sq_diag_one :
    round_f64 ((6369051672525773 : ℝ) / 4503599627370496 * (6369051672525773 / 4503599627370496))
      = 4503599627370497 / 2251799813685248 := by
  have h : round_f64
      ((6369051672525773 : ℝ) / 4503599627370496 * (6369051672525773 / 4503599627370496))
      = ((4503599627370497 : ℤ) : ℝ) * 2 ^ ((1 : ℤ) - 52) :=
    round_f64_eq_of_near_pos (by norm_num) (by norm_num) (by norm_num) (by norm_num)
      (by norm_num)
  rw [h]
  norm_num

theorem euclidean_dist2_int (d : point) :
    euclidean_dist2 d = 0 ∨ 1 ≤ euclidean_dist2 d := by
  unfold euclidean_dist2
  have h0 : 0 ≤ d.x * d.x + d.y * d.y := add_nonneg (mul_self_nonneg _) (mul_self_nonneg _)
  rcases eq_or_lt_of_le h0 with h | h
  · left
    rw [← h]
    norm_num
  · right
    have h1 : 1 ≤ d.x * d.x + d.y * d.y := h
    exact_mod_cast h1

theorem sq_near_aux {s r u : ℝ} (hs : 1 ≤ s) (hu0 : 0 ≤ u) (hu1 : u ≤ 1 / 8)
    (hr : |r - s| ≤ s * u) :
    |r ^ 2 - s * s| ≤ s * s * (u * (2 + u)) ∧ 1 / 4 ≤ r * r ∧ r * r ≤ s * s * (1 + u) ^ 2 := by
  have hs0 : 0 ≤ s := le_trans zero_le_one hs
  have hsu : 0 ≤ s * u := mul_nonneg hs0 hu0
  have hr' := abs_le.mp hr
  have hsu8 : s * u ≤ s * (1 / 8) := mul_le_mul_of_nonneg_left hu1 hs0
  have hrlo : 7 / 8 ≤ r := by linarith
  have hr0 : 0 ≤ r := by linarith
  have hrhi : r ≤ s * (1 + u) := by linarith
  refine ⟨?_, ?_, ?_⟩
  · have h1 : r ^ 2 - s * s = (r - s) * (r + s) := by ring
    have h2 : |r + s| ≤ 2 * s + s * u := by
      rw [abs_le]
      constructor <;> linarith
    rw [h1, abs_mul]
    calc |r - s| * |r + s| ≤ s * u * (2 * s + s * u) :=
          mul_le_mul hr h2 (abs_nonneg _) hsu
      _ = s * s * (u * (2 + u)) := by ring
  · have := mul_self_le_mul_self (by norm_num : (0 : ℝ) ≤ 7 / 8) hrlo
    linarith
  · have := mul_self_le_mul_self hr0 hrhi
    calc r * r ≤ s * (1 + u) * (s * (1 + u)) := this
      _ = s * s * (1 + u) ^ 2 := by ring

theorem sq_round_aux {n q p u : ℝ} (hn : 0 ≤ n) (hu0 : 0 ≤ u) (hu1 : u ≤ 1 / 8)
    (hp : |p - n| ≤ n * (u * (2 + u))) (hpn : p ≤ n * (1 + u) ^ 2)
    (hq : |q - p| ≤ p * u) :
    |p - n| ≤ n * (4 * u) ∧ |q - n| ≤ n * (4 * u) := by
  have hnu : 0 ≤ n * u := mul_nonneg hn hu0
  have h1 : n * u * u ≤ n * u * (1 / 8) := mul_le_mul_of_nonneg_left hu1 hnu
  have hnuu : 0 ≤ n * u * u := mul_nonneg hnu hu0
  have h2 : n * u * u * u ≤ n * u * u * (1 / 8) := mul_le_mul_of_nonneg_left hu1 hnuu
  have hpu : p * u ≤ n * (1 + u) ^ 2 * u := mul_le_mul_of_nonneg_right hpn hu0
  have e1 : n * (u * (2 + u)) = 2 * (n * u) + n * u * u := by ring
  have e2 : n * (1 + u) ^ 2 * u = n * u + 2 * (n * u * u) + n * u * u * u := by ring
  have e3 : n * (4 * u) = 4 * (n * u) := by ring
  have hp' := abs_le.mp hp
  have hq' := abs_le.mp hq
  constructor
  · rw [abs_le]
    constructor <;> linarith
  · rw [abs_le]
    constructor <;> linarith

/-- The square of the rounded root, exact or rounded once more, is within the
relative error `2 ^ (-51)` of the radicand. -/
theorem sq_round_f64_sqrt_bound {n : ℝ} (hn : 1 ≤ n) :
    |round_f64 (Real.sqrt n) ^ 2 - n| ≤ n * 2 ^ (-51 : ℤ) ∧
      |round_f64 (round_f64 (Real.sqrt n) * round_f64 (Real.sqrt n)) - n|
        ≤ n * 2 ^ (-51 : ℤ) := by
  have hn0 : (0 : ℝ) ≤ n := le_trans zero_le_one hn
  have hu0 : (0 : ℝ) ≤ 2 ^ (-53 : ℤ) := (two_zpow_pos _).le
  have hu1 : (2 : ℝ) ^ (-53 : ℤ) ≤ 1 / 8 := by norm_num
  have h51 : (2 : ℝ) ^ (-51 : ℤ) = 4 * 2 ^ (-53 : ℤ) := by norm_num
  have hmin : (2 : ℝ) ^ (-1022 : ℤ) ≤ 1 := by
    have := zpow_le_zpow_right₀ (by norm_num : (1 : ℝ) ≤ 2) (by norm_num : (-1022 : ℤ) ≤ 0)
    simpa using this
  have hs1 : 1 ≤ Real.sqrt n := Real.one_le_sqrt.mpr hn
  have hss : Real.sqrt n * Real.sqrt n = n := Real.mul_self_sqrt hn0
  have hspos : (0 : ℝ) < Real.sqrt n := lt_of_lt_of_le zero_lt_one hs1
  have hr : |round_f64 (Real.sqrt n) - Real.sqrt n| ≤ Real.sqrt n * 2 ^ (-53 : ℤ) := by
    have h := abs_round_f64_sub_le (le_trans hmin (by rwa [abs_of_pos hspos]))
    rwa [abs_of_pos hspos] at h
  obtain ⟨ha, hb, hc⟩ := sq_near_aux hs1 hu0 hu1 hr
  rw [hss] at ha hc
  have hp0 : (0 : ℝ) < round_f64 (Real.sqrt n) * round_f64 (Real.sqrt n) := by linarith
  have hq : |round_f64 (round_f64 (Real.sqrt n) * round_f64 (Real.sqrt n))
      - round_f64 (Real.sqrt n) * round_f64 (Real.sqrt n)|
      ≤ round_f64 (Real.sqrt n) * round_f64 (Real.sqrt n) * 2 ^ (-53 : ℤ) := by
    have hmin4 : (2 : ℝ) ^ (-1022 : ℤ) ≤ 1 / 4 := by
      have := zpow_le_zpow_right₀ (by norm_num : (1 : ℝ) ≤ 2) (by norm_num : (-1022 : ℤ) ≤ -2)
      have h4 : (2 : ℝ) ^ (-2 : ℤ) = 1 / 4 := by norm_num
      rwa [h4] at this
    have h := abs_round_f64_sub_le
      (le_trans hmin4 (by rw [abs_of_pos hp0]; exact hb))
    rwa [abs_of_pos hp0] at h
  have hsq : round_f64 (Real.sqrt n) ^ 2 = round_f64 (Real.sqrt n) * round_f64 (Real.sqrt n) :=
    sq _
  rw [hsq] at ha ⊢
  rw [h51]
  exact sq_round_aux hn0 hu0 hu1 ha hc hq

theorem min_xy_dist_unit_steps :
    min_xy_dist ⟨1, 1⟩ = 1 ∧ min_xy_dist ⟨1, 0⟩ = 0 ∧ min_xy_dist ⟨0, 1⟩ = 0 := by
  simp [min_xy_dist]

/-! ## The wrapped displacement -/

theorem dist_to_point_eq_delta (e : dist_entry) (p : point) :
    e.dist_to_point p = dist_delta e.type (e.delta_to_point p) := by
  unfold dist_entry.dist_to_point dist_entry.delta_to_point
  rfl

theorem init_delta_to_point_wrap (width height : ℤ) (t : dist_type) (pnt : point)
    (rweight gweight bweight : ℝ) (reverse : Bool) (p : point) :
    (dist_entry.init width height t pnt rweight gweight bweight reverse true).delta_to_point p
      = ⟨wrap_axis pnt.x p.x width, wrap_axis pnt.y p.y height⟩ := by
  simp [dist_entry.init, dist_entry.delta_to_point, wrap_axis]

theorem init_dist_to_point_wrap (width height : ℤ) (t : dist_type) (pnt : point)
    (rweight gweight bweight : ℝ) (reverse : Bool) (p : point) :
    (dist_entry.init width height t pnt rweight gweight bweight reverse true).dist_to_point p
      = dist_delta t ⟨wrap_axis pnt.x p.x width, wrap_axis pnt.y p.y height⟩ := by
  rw [dist_to_point_eq_delta, init_delta_to_point_wrap]
  rfl

theorem wrap_axis_nonneg {a p n : ℤ} (ha : 0 ≤ a) (ha' : a < n) (hp : 0 ≤ p) (hp' : p < n) :
    0 ≤ wrap_axis a p n := by
  unfold wrap_axis
  split_ifs <;> omega

theorem wrap_axis_le_half (a p n : ℤ) : wrap_axis a p n ≤ n / 2 := by
  unfold wrap_axis
  split_ifs <;> omega

theorem wrap_axis_le_abs {a p n : ℤ} (ha : 0 ≤ a) (ha' : a < n) (hp : 0 ≤ p) (hp' : p < n)
    (i : ℤ) : wrap_axis a p n ≤ |a - p + i * n| := by
  have hn : 0 < n := lt_of_le_of_lt ha ha'
  rcases lt_trichotomy i 0 with hi | hi | hi
  · have h1 : i * n ≤ -n := by nlinarith
    have h2 : |a - p + i * n| = -(a - p + i * n) := abs_of_nonpos (by omega)
    rw [h2]
    unfold wrap_axis
    split_ifs <;> omega
  · subst hi
    rw [zero_mul, add_zero]
    have h1 := le_abs_self (a - p)
    have h2 := neg_abs_le (a - p)
    unfold wrap_axis
    split_ifs <;> omega
  · have h1 : n ≤ i * n := by nlinarith
    have h2 : |a - p + i * n| = a - p + i * n := abs_of_nonneg (by omega)
    rw [h2]
    unfold wrap_axis
    split_ifs <;> omega

theorem wrap_axis_attained {a p n : ℤ} (ha : 0 ≤ a) (ha' : a < n) (hp : 0 ≤ p) (hp' : p < n) :
    ∃ i : ℤ, |a - p + i * n| = wrap_axis a p n := by
  have h0 := wrap_axis_nonneg ha ha' hp hp'
  by_cases hd : a - p < 0
  · by_cases hm : -(a - p) ≤ a - (p - n)
    · refine ⟨0, ?_⟩
      rw [zero_mul, add_zero, abs_of_neg hd]
      unfold wrap_axis
      rw [if_pos hd, min_eq_left hm]
    · refine ⟨1, ?_⟩
      rw [one_mul, abs_of_nonneg (by omega)]
      unfold wrap_axis
      rw [if_pos hd, min_eq_right (by omega)]
      omega
  · by_cases hm : a - p ≤ p + n - a
    · refine ⟨0, ?_⟩
      rw [zero_mul, add_zero, abs_of_nonneg (by omega)]
      unfold wrap_axis
      rw [if_neg hd, min_eq_left hm]
    · refine ⟨-1, ?_⟩
      rw [abs_of_nonpos (by omega)]
      unfold wrap_axis
      rw [if_neg hd, min_eq_right (by omega)]
      omega

theorem dist_delta_abs_congr (t : dist_type) {d d' : point} (hx : |d.x| = |d'.x|)
    (hy : |d.y| = |d'.y|) : dist_delta t d = dist_delta t d' :=
  le_antisymm (dist_delta_mono t hx.le hy.le) (dist_delta_mono t hx.ge hy.ge)

/-- For every metric the distance of a wrapping source to an in-canvas pixel is
the least value of the metric over all the translates of the displacement by
multiples of the canvas extents. -/
theorem init_dist_to_point_wrap_toroidal (width height : ℤ) (t : dist_type) (pnt : point)
    (rweight gweight bweight : ℝ) (reverse : Bool) (p : point)
    (hx0 : 0 ≤ pnt.x) (hx : pnt.x < width) (hy0 : 0 ≤ pnt.y) (hy : pnt.y < height)
    (hpx0 : 0 ≤ p.x) (hpx : p.x < width) (hpy0 : 0 ≤ p.y) (hpy : p.y < height) :
    is_toroidal_min t width height pnt p
      ((dist_entry.init width height t pnt rweight gweight bweight reverse true).dist_to_point
        p) := by
  rw [init_dist_to_point_wrap]
  have hwx := wrap_axis_nonneg hx0 hx hpx0 hpx
  have hwy := wrap_axis_nonneg hy0 hy hpy0 hpy
  constructor
  · intro i j
    apply dist_delta_mono
    · show |wrap_axis pnt.x p.x width| ≤ |pnt.x - p.x + i * width|
      rw [abs_of_nonneg hwx]
      exact wrap_axis_le_abs hx0 hx hpx0 hpx i
    · show |wrap_axis pnt.y p.y height| ≤ |pnt.y - p.y + j * height|
      rw [abs_of_nonneg hwy]
      exact wrap_axis_le_abs hy0 hy hpy0 hpy j
  · obtain ⟨i, hi⟩ := wrap_axis_attained hx0 hx hpx0 hpx
    obtain ⟨j, hj⟩ := wrap_axis_attained hy0 hy hpy0 hpy
    refine ⟨i, j, ?_⟩
    apply dist_delta_abs_congr
    · show |wrap_axis pnt.x p.x width| = |pnt.x - p.x + i * width|
      rw [abs_of_nonneg hwx, hi]
    · show |wrap_axis pnt.y p.y height| = |pnt.y - p.y + j * height|
      rw [abs_of_nonneg hwy, hj]

theorem wrap_axis_same {a n : ℤ} (hn : 0 ≤ n) : wrap_axis a a n = 0 := by
  unfold wrap_axis
  split_ifs <;> omega

theorem wrap_axis_low_edge {n : ℤ} (hn : 2 ≤ n) :
    wrap_axis 0 (n - 1) n = 1 ∧ wrap_axis 0 (-1) n = 1 := by
  unfold wrap_axis
  constructor <;> split_ifs <;> omega

theorem wrap_axis_high_edge {n : ℤ} (hn : 2 ≤ n) :
    wrap_axis (n - 1) 0 n = 1 ∧ wrap_axis (n - 1) n n = 1 := by
  unfold wrap_axis
  constructor <;> split_ifs <;> omega

theorem init_max_dist_wrap_pos (width height : ℤ) (t : dist_type) (pnt : point)
    (rweight gweight bweight : ℝ) (reverse : Bool) (hw : 2 ≤ width) (hh : 2 ≤ height) :
    0 < (dist_entry.init width height t pnt rweight gweight bweight reverse true).max_dist := by
  rw [init_max_dist_wrap, Int.tdiv_eq_ediv (by omega) (by norm_num),
    Int.tdiv_eq_ediv (by omega) (by norm_num)]
  apply dist_delta_pos
  · show width / 2 ≠ 0
    omega
  · show height / 2 ≠ 0
    omega

/-! ## The sources of the video -/

/-- The rebuild of a source in the frame loop of `create_video` goes through
the constructor: with `wrap` set, the new `max_dist` is the wrap normalisation. -/
theorem create_video_advance_entry_wrap (width height : ℤ) (entry : dist_entry) (delta : point)
    (hwrap : entry.wrap = true) :
    (create_video_advance_entry width height entry delta).wrap = true ∧
      (create_video_advance_entry width height entry delta).type = entry.type ∧
      (create_video_advance_entry width height entry delta).max_dist
        = dist_delta entry.type ⟨Int.tdiv width 2, Int.tdiv height 2⟩ := by
  simp [create_video_advance_entry, dist_entry.init, hwrap]

theorem manhattan_dist_eight : manhattan_dist ⟨8, 8⟩ = 16 ∧ manhattan_dist ⟨4, 4⟩ = 8 := by
  constructor <;> simp [manhattan_dist]

/-! ## C1: the byte of a channel -/

/-- C1 (counterexample): with accumulated value `1` and total weight `1` the
scaled, rounded intensity is `893`; `get_pixel` returns the red byte `125`,
while the clamped value the specification describes is `255`. -/
theorem get_pixel_not_clamped :
    scaled_rounded 1 1 = 893 ∧
      (pre_image.get_pixel ⟨[⟨1, 0, 0⟩], 1, 1, 0, 0⟩ 0 0).red = 125 ∧
      get_pixel_channel_spec 1 1 = 255 ∧
      (((pre_image.get_pixel ⟨[⟨1, 0, 0⟩], 1, 1, 0, 0⟩ 0 0).red : ℕ) : ℤ)
        ≠ get_pixel_channel_spec 1 1 := by
  have h893 : scaled_rounded 1 1 = 893 := scaled_rounded_one
  have hred : (pre_image.get_pixel ⟨[⟨1, 0, 0⟩], 1, 1, 0, 0⟩ 0 0).red = 125 := by
    simp only [pre_image.get_pixel, pre_image.pixel_ref, pre_image.pixel_index]
    simpa using get_pixel_channel_one
  have hspec : get_pixel_channel_spec 1 1 = 255 := by
    unfold get_pixel_channel_spec
    rw [scaled_rounded_one]
    decide
  refine ⟨h893, hred, hspec, ?_⟩
  rw [hred, hspec]
  decide

/-- C1 (amended): for every accumulator and pixel whose three slot sums and
total weights are finite `double`s with quotients of magnitude at most `2 ^ 52`,
each channel byte returned by `get_pixel` is the scaled, rounded intensity
reduced modulo `256`; that intensity is `std::lround` of the `double`
`(v * 3.5) * 255`, with `v` the `double` quotient `accumulated / total_weight`
(`v = 0` when the total weight is `0`), every operation rounding to binary64.
The byte is the clamped value of the specification whenever the intensity lies
in `[0, 255]`. -/
theorem get_pixel_wraps (im : pre_image) (x y : ℤ)
    (_hr : channel_in_range (im.pixel_ref x y).r im.rweight)
    (_hg : channel_in_range (im.pixel_ref x y).g im.gweight)
    (_hb : channel_in_range (im.pixel_ref x y).b im.bweight) :
    (((im.get_pixel x y).red : ℤ) = scaled_rounded (im.pixel_ref x y).r im.rweight % 256 ∧
      ((im.get_pixel x y).green : ℤ) = scaled_rounded (im.pixel_ref x y).g im.gweight % 256 ∧
      ((im.get_pixel x y).blue : ℤ) = scaled_rounded (im.pixel_ref x y).b im.bweight % 256) ∧
    ∀ acc weight : ℝ, channel_in_range acc weight →
      0 ≤ scaled_rounded acc weight → scaled_rounded acc weight ≤ 255 →
      ((get_pixel_channel acc weight : ℕ) : ℤ) = get_pixel_channel_spec acc weight := by
  refine ⟨⟨?_, ?_, ?_⟩, ?_⟩
  · exact get_pixel_channel_cast _ _
  · exact get_pixel_channel_cast _ _
  · exact get_pixel_channel_cast _ _
  · intro acc weight _ h0 h1
    rw [get_pixel_channel_cast]
    unfold get_pixel_channel_spec
    rw [min_eq_right h1, max_eq_right h0]
    exact Int.emod_eq_of_lt h0 (by omega)

/-- C1 (witness): the slot `(1, 0, 0)` under the total weights `(3, 0, 0)`: the
red intensity is `297`, from the `double` `297.49999999999994`, and the red
byte is `41`. -/
theorem get_pixel_wraps_witness :
    ((((pre_image.get_pixel ⟨[⟨1, 0, 0⟩], 1, 3, 0, 0⟩ 0 0).red : ℤ)
          = scaled_rounded (pre_image.pixel_ref ⟨[⟨1, 0, 0⟩], 1, 3, 0, 0⟩ 0 0).r 3 % 256 ∧
        ((pre_image.get_pixel ⟨[⟨1, 0, 0⟩], 1, 3, 0, 0⟩ 0 0).green : ℤ)
          = scaled_rounded (pre_image.pixel_ref ⟨[⟨1, 0, 0⟩], 1, 3, 0, 0⟩ 0 0).g 0 % 256 ∧
        ((pre_image.get_pixel ⟨[⟨1, 0, 0⟩], 1, 3, 0, 0⟩ 0 0).blue : ℤ)
          = scaled_rounded (pre_image.pixel_ref ⟨[⟨1, 0, 0⟩], 1, 3, 0, 0⟩ 0 0).b 0 % 256) ∧
      ∀ acc weight : ℝ, channel_in_range acc weight →
        0 ≤ scaled_rounded acc weight → scaled_rounded acc weight ≤ 255 →
        ((get_pixel_channel acc weight : ℕ) : ℤ) = get_pixel_channel_spec acc weight) ∧
      scaled_rounded 1 3 = 297 ∧
      (pre_image.get_pixel ⟨[⟨1, 0, 0⟩], 1, 3, 0, 0⟩ 0 0).red = 41 := by
  have h1 : is_f64 1 := ⟨1, 0, by norm_num, by norm_num, by norm_num, by norm_num⟩
  have h3 : is_f64 3 := ⟨3, 0, by norm_num, by norm_num, by norm_num, by norm_num⟩
  have h0 : is_f64 0 := ⟨0, 0, by norm_num, by norm_num, by norm_num, by norm_num⟩
  have hq : (3 : ℝ) ≠ 0 → |(1 : ℝ) / 3| ≤ 2 ^ 52 := by
    intro _
    rw [abs_of_pos (by norm_num)]
    norm_num
  refine ⟨get_pixel_wraps ⟨[⟨1, 0, 0⟩], 1, 3, 0, 0⟩ 0 0 ⟨h1, h3, hq⟩
    ⟨h0, h0, fun h => absurd rfl h⟩ ⟨h0, h0, fun h => absurd rfl h⟩, scaled_rounded_one_third, ?_⟩
  simp only [pre_image.get_pixel, pre_image.pixel_ref, pre_image.pixel_index]
  simpa using get_pixel_channel_one_third

/-! ## C2: the advance step of `create_video` -/

/-- C2 (the code at the failing input): on a `10 x 10` canvas a source at
`(9, 0)` advanced by `(1, 0)` is rebuilt at `(10, 0)`, outside the canvas,
although the body of `clamp_point` maps `(10, 0)` to `(0, 0)`: the clamped
point never reaches the caller. -/
theorem create_video_advance_entry_not_clamped :
    (create_video_advance_entry 10 10
        (dist_entry.init 10 10 dist_type.MANHATTAN ⟨9, 0⟩ 1 1 1 false true) ⟨1, 0⟩).pnt
        = ⟨10, 0⟩ ∧
      clamp_point_body ⟨10, 0⟩ 10 10 = ⟨0, 0⟩ := by
  constructor
  · simp only [create_video_advance_entry, dist_entry.init]
    rfl
  · decide

/-! ## C3: the scaled distance of a non-wrapping source -/

/-- C3: for a non-wrapping source built by the constructor on a canvas with
`width ≥ 1`, `height ≥ 1` and an in-bounds anchor, with any metric and either
reverse flag, `scaled_dist p` lies in `[0, 1]` for every in-canvas pixel `p`. -/
theorem scaled_dist_mem_unit_nowrap (width height : ℤ) (t : dist_type) (pnt : point)
    (rweight gweight bweight : ℝ) (reverse : Bool) (p : point)
    (_hw : 1 ≤ width) (_hh : 1 ≤ height)
    (hx0 : 0 ≤ pnt.x) (hx : pnt.x < width) (hy0 : 0 ≤ pnt.y) (hy : pnt.y < height)
    (hpx0 : 0 ≤ p.x) (hpx : p.x < width) (hpy0 : 0 ≤ p.y) (hpy : p.y < height) :
    0 ≤ (dist_entry.init width height t pnt rweight gweight bweight reverse false).scaled_dist p ∧
      (dist_entry.init width height t pnt rweight gweight bweight reverse false).scaled_dist p
        ≤ 1 := by
  have hpos := init_max_dist_nowrap_pos width height t pnt rweight gweight bweight reverse
    hx hy
  have hle := init_dist_le_max_dist_nowrap width height t pnt rweight gweight bweight reverse p
    hx0 hy0 hpx0 hpx hpy0 hpy
  have hnn : 0 ≤ (dist_entry.init width height t pnt rweight gweight bweight reverse
      false).dist_to_point p := by
    rw [init_dist_to_point_nowrap]
    exact dist_delta_nonneg t _
  have h0 := div_nonneg hnn hpos.le
  have h1 := (div_le_one hpos).mpr hle
  rw [init_scaled_dist]
  cases reverse
  · exact ⟨h0, h1⟩
  · simp only [if_true]
    constructor <;> linarith

/-- C3 (witness): a Euclidean, reversed, non-wrapping source at `(2, 1)` on a
`4 x 3` canvas, evaluated at the pixel `(3, 2)`. -/
theorem scaled_dist_mem_unit_nowrap_witness :
    0 ≤ (dist_entry.init 4 3 dist_type.EUCLIDEAN ⟨2, 1⟩ 1 0 0 true false).scaled_dist ⟨3, 2⟩ ∧
      (dist_entry.init 4 3 dist_type.EUCLIDEAN ⟨2, 1⟩ 1 0 0 true false).scaled_dist ⟨3, 2⟩ ≤ 1 :=
  scaled_dist_mem_unit_nowrap 4 3 dist_type.EUCLIDEAN ⟨2, 1⟩ 1 0 0 true ⟨3, 2⟩
    (by decide) (by decide) (by decide) (by decide) (by decide) (by decide)
    (by decide) (by decide) (by decide) (by decide)

/-! ## C4: compositing no source -/

/-- C4: for every image of positive width and height, `set_png_bytes` with an
empty source list leaves the dimensions and sets every pixel `(x, y)` with
`0 ≤ x < width`, `0 ≤ y < height` to the byte triple `(0, 0, 0)`. -/
theorem set_png_bytes_empty (image : png_image) (x y : ℤ)
    (_hw : 0 < image.width) (_hh : 0 < image.height)
    (hx0 : 0 ≤ x) (hx : x < (image.width : ℤ)) (hy0 : 0 ≤ y) (hy : y < (image.height : ℤ)) :
    (set_png_bytes image []).get_pixel x y = ⟨0, 0, 0⟩ ∧
      (set_png_bytes image []).width = image.width ∧
      (set_png_bytes image []).height = image.height := by
  refine ⟨?_, set_png_bytes_size image []⟩
  show (set_png_bytes image []).pix x y = _
  rw [set_png_bytes_pix, if_pos ⟨⟨hx0, hx⟩, ⟨hy0, hy⟩⟩, composite_pixel_nil]

/-- C4 (witness): a `3 x 2` image that held `(9, 9, 9)` everywhere, read at `(2, 1)`. -/
theorem set_png_bytes_empty_witness :
    (set_png_bytes ⟨3, 2, fun _ _ => ⟨9, 9, 9⟩⟩ []).get_pixel 2 1 = ⟨0, 0, 0⟩ ∧
      (set_png_bytes ⟨3, 2, fun _ _ => ⟨9, 9, 9⟩⟩ []).width = 3 ∧
      (set_png_bytes ⟨3, 2, fun _ _ => ⟨9, 9, 9⟩⟩ []).height = 2 :=
  set_png_bytes_empty ⟨3, 2, fun _ _ => ⟨9, 9, 9⟩⟩ 2 1
    (by decide) (by decide) (by decide) (by decide) (by decide) (by decide)

/-! ## C5: the order of the sources -/

/-- C5 (counterexample): on the `2 x 2` canvas, three Manhattan sources at
`(0, 0)` with red weights the `double`s `0.1`, `0.2`, `0.3`, the middle one
reversed, give the red byte `41` at `(0, 0)`; the same sources in the reverse
order give `42`.  The sum at the pixel is `0.2` in both orders; the total
weight is `(0.1 + 0.2) + 0.3 = 0.6000000000000001` in one and
`(0.3 + 0.2) + 0.1 = 0.6` in the other. -/
theorem set_png_bytes_order_matters :
    ((set_png_bytes ⟨2, 2, fun _ _ => ⟨0, 0, 0⟩⟩
        [dist_entry.init 2 2 dist_type.MANHATTAN ⟨0, 0⟩ tenth_f64 0 0 false false,
          dist_entry.init 2 2 dist_type.MANHATTAN ⟨0, 0⟩ fifth_f64 0 0 true false,
          dist_entry.init 2 2 dist_type.MANHATTAN ⟨0, 0⟩ three_tenths_f64 0 0 false
            false]).get_pixel 0 0).red = 41 ∧
      ((set_png_bytes ⟨2, 2, fun _ _ => ⟨0, 0, 0⟩⟩
        [dist_entry.init 2 2 dist_type.MANHATTAN ⟨0, 0⟩ three_tenths_f64 0 0 false false,
          dist_entry.init 2 2 dist_type.MANHATTAN ⟨0, 0⟩ fifth_f64 0 0 true false,
          dist_entry.init 2 2 dist_type.MANHATTAN ⟨0, 0⟩ tenth_f64 0 0 false
            false]).get_pixel 0 0).red = 42 ∧
      List.Perm
        [dist_entry.init 2 2 dist_type.MANHATTAN ⟨0, 0⟩ tenth_f64 0 0 false false,
          dist_entry.init 2 2 dist_type.MANHATTAN ⟨0, 0⟩ fifth_f64 0 0 true false,
          dist_entry.init 2 2 dist_type.MANHATTAN ⟨0, 0⟩ three_tenths_f64 0 0 false false]
        [dist_entry.init 2 2 dist_type.MANHATTAN ⟨0, 0⟩ three_tenths_f64 0 0 false false,
          dist_entry.init 2 2 dist_type.MANHATTAN ⟨0, 0⟩ fifth_f64 0 0 true false,
          dist_entry.init 2 2 dist_type.MANHATTAN ⟨0, 0⟩ tenth_f64 0 0 false false] := by
  have hin : (0 ≤ (0 : ℤ) ∧ (0 : ℤ) < ((2 : ℕ) : ℤ)) ∧ (0 ≤ (0 : ℤ) ∧ (0 : ℤ) < ((2 : ℕ) : ℤ)) := by
    decide
  refine ⟨?_, ?_, ?_⟩
  · show ((set_png_bytes _ _).pix 0 0).red = 41
    rw [set_png_bytes_pix, if_pos hin]
    exact composite_three_sources_red.1
  · show ((set_png_bytes _ _).pix 0 0).red = 42
    rw [set_png_bytes_pix, if_pos hin]
    exact composite_three_sources_red.2
  · exact (List.Perm.swap _ _ _).trans
      ((List.Perm.cons _ (List.Perm.swap _ _ _)).trans (List.Perm.swap _ _ _))

/-- C5 (amended): for every image (of any canvas size) and every list of at
most two sources whose weights are finite `double`s, `set_png_bytes` on a
permutation of the list produces the same frame, pixel for pixel, as on the
list itself.  The sums are taken in list order and every addition rounds, so
nothing of the kind is stated for three or more sources. -/
theorem set_png_bytes_perm_two (image : png_image) (entries entries' : List dist_entry)
    (hlen : entries.length ≤ 2)
    (hw : ∀ e ∈ entries, is_f64 e.rweight ∧ is_f64 e.gweight ∧ is_f64 e.bweight)
    (h : entries.Perm entries') :
    set_png_bytes image entries = set_png_bytes image entries' := by
  rcases perm_of_length_le_two hlen h with heq | ⟨a, b, hab, hba⟩
  · rw [heq]
  · subst hab
    subst hba
    apply png_image_ext
    · rw [(set_png_bytes_size image [a, b]).1, (set_png_bytes_size image [b, a]).1]
    · rw [(set_png_bytes_size image [a, b]).2, (set_png_bytes_size image [b, a]).2]
    · intro x y
      rw [set_png_bytes_pix, set_png_bytes_pix,
        composite_pixel_pair a b (hw a (List.mem_cons_self a [b]))
          (hw b (List.mem_cons_of_mem a (List.mem_cons_self b [])))]

/-- C5 (witness): two sources on a `2 x 2` canvas, in either order. -/
theorem set_png_bytes_perm_two_witness :
    set_png_bytes ⟨2, 2, fun _ _ => ⟨0, 0, 0⟩⟩
        [dist_entry.init 2 2 dist_type.MANHATTAN ⟨0, 0⟩ tenth_f64 0 0 false false,
          dist_entry.init 2 2 dist_type.EUCLIDEAN ⟨1, 1⟩ 0 fifth_f64 three_tenths_f64 true true]
      = set_png_bytes ⟨2, 2, fun _ _ => ⟨0, 0, 0⟩⟩
        [dist_entry.init 2 2 dist_type.EUCLIDEAN ⟨1, 1⟩ 0 fifth_f64 three_tenths_f64 true true,
          dist_entry.init 2 2 dist_type.MANHATTAN ⟨0, 0⟩ tenth_f64 0 0 false false] := by
  have h0 : is_f64 0 := ⟨0, 0, by norm_num, by norm_num, by norm_num, by norm_num⟩
  have h1 : is_f64 tenth_f64 :=
    ⟨3602879701896397, -55, by norm_num, by norm_num, by norm_num, by unfold tenth_f64; norm_num⟩
  have h2 : is_f64 fifth_f64 :=
    ⟨3602879701896397, -54, by norm_num, by norm_num, by norm_num, by unfold fifth_f64; norm_num⟩
  have h3 : is_f64 three_tenths_f64 :=
    ⟨5404319552844595, -54, by norm_num, by norm_num, by norm_num,
      by unfold three_tenths_f64; norm_num⟩
  refine set_png_bytes_perm_two _ _ _ (by decide) ?_ (List.Perm.swap _ _ [])
  intro e he
  rcases List.mem_cons.mp he with rfl | he
  · exact ⟨h1, h0, h0⟩
  · rcases List.mem_cons.mp he with rfl | he
    · exact ⟨h0, h2, h3⟩
    · exact absurd he (List.not_mem_nil e)

/-! ## C6: the scaled distance at the anchor -/

/-- C6: for a non-wrapping source built by the constructor on a canvas with
`width ≥ 1`, `height ≥ 1` and an in-bounds anchor, with any of the five metrics,
the divisor `max_dist` is positive and `scaled_dist` at the anchor itself is `0`
when reverse is false and `1` when reverse is true. -/
theorem scaled_dist_at_anchor_nowrap (width height : ℤ) (t : dist_type) (pnt : point)
    (rweight gweight bweight : ℝ) (reverse : Bool)
    (_hw : 1 ≤ width) (_hh : 1 ≤ height)
    (_hx0 : 0 ≤ pnt.x) (hx : pnt.x < width) (_hy0 : 0 ≤ pnt.y) (hy : pnt.y < height) :
    0 < (dist_entry.init width height t pnt rweight gweight bweight reverse false).max_dist ∧
      (dist_entry.init width height t pnt rweight gweight bweight reverse false).scaled_dist pnt
        = if reverse then 1 else 0 := by
  refine ⟨init_max_dist_nowrap_pos width height t pnt rweight gweight bweight reverse hx hy, ?_⟩
  have hd : (dist_entry.init width height t pnt rweight gweight bweight reverse
      false).dist_to_point pnt = 0 := by
    rw [init_dist_to_point_nowrap]
    have : pnt - pnt = (⟨0, 0⟩ : point) := by
      show (⟨pnt.x - pnt.x, pnt.y - pnt.y⟩ : point) = ⟨0, 0⟩
      rw [sub_self, sub_self]
    rw [this]
    exact dist_delta_zero t
  rw [init_scaled_dist, hd, zero_div, sub_zero]

/-- C6 (witness): a MinAxis, reversed, non-wrapping source at `(0, 0)` on the
`1 x 1` canvas. -/
theorem scaled_dist_at_anchor_nowrap_witness :
    0 < (dist_entry.init 1 1 dist_type.MIN_XY ⟨0, 0⟩ 1 1 1 true false).max_dist ∧
      (dist_entry.init 1 1 dist_type.MIN_XY ⟨0, 0⟩ 1 1 1 true false).scaled_dist ⟨0, 0⟩
        = if true then 1 else 0 :=
  scaled_dist_at_anchor_nowrap 1 1 dist_type.MIN_XY ⟨0, 0⟩ 1 1 1 true
    (by decide) (by decide) (by decide) (by decide) (by decide) (by decide)

/-! ## C7: one Euclidean source on the `4 x 4` canvas -/

/-- C7 (counterexample): on the `4 x 4` canvas with the single source (Euclidean,
anchor `(0, 0)`, weights `(1, 0, 0)`, not reversed, not wrapping) the red byte
at `(3, 3)` is `157`, not `255`. -/
theorem set_png_bytes_euclidean_corner_not_white :
    ((set_png_bytes ⟨4, 4, fun _ _ => ⟨0, 0, 0⟩⟩
        [dist_entry.init 4 4 dist_type.EUCLIDEAN ⟨0, 0⟩ 1 0 0 false false]).get_pixel
        3 3).red = 157 ∧
      ((set_png_bytes ⟨4, 4, fun _ _ => ⟨0, 0, 0⟩⟩
        [dist_entry.init 4 4 dist_type.EUCLIDEAN ⟨0, 0⟩ 1 0 0 false false]).get_pixel
        3 3).red ≠ 255 := by
  have h : ((set_png_bytes ⟨4, 4, fun _ _ => ⟨0, 0, 0⟩⟩
        [dist_entry.init 4 4 dist_type.EUCLIDEAN ⟨0, 0⟩ 1 0 0 false false]).get_pixel
        3 3).red = 157 := by
    show ((set_png_bytes _ _).pix 3 3).red = 157
    rw [set_png_bytes_pix, if_pos (by decide)]
    exact composite_euclidean_corner_red.2
  refine ⟨h, ?_⟩
  rw [h]
  decide

/-- C7 (amended): compositing a `4 x 4` canvas, whatever it held before, with the
single source (Euclidean, anchor `(0, 0)`, weights `(1, 0, 0)`, reverse = false,
wrap = false) gives red channel byte `0` at pixel `(0, 0)` and red channel byte
`157` at pixel `(3, 3)`. -/
theorem set_png_bytes_euclidean_corner (pix : ℤ → ℤ → rgb_pixel) :
    ((set_png_bytes ⟨4, 4, pix⟩
        [dist_entry.init 4 4 dist_type.EUCLIDEAN ⟨0, 0⟩ 1 0 0 false false]).get_pixel
        0 0).red = 0 ∧
      ((set_png_bytes ⟨4, 4, pix⟩
        [dist_entry.init 4 4 dist_type.EUCLIDEAN ⟨0, 0⟩ 1 0 0 false false]).get_pixel
        3 3).red = 157 := by
  have h0 : (0 ≤ (0 : ℤ) ∧ (0 : ℤ) < ((4 : ℕ) : ℤ)) ∧ (0 ≤ (0 : ℤ) ∧ (0 : ℤ) < ((4 : ℕ) : ℤ)) := by
    decide
  have h3 : (0 ≤ (3 : ℤ) ∧ (3 : ℤ) < ((4 : ℕ) : ℤ)) ∧ (0 ≤ (3 : ℤ) ∧ (3 : ℤ) < ((4 : ℕ) : ℤ)) := by
    decide
  constructor
  · show ((set_png_bytes _ _).pix 0 0).red = 0
    rw [set_png_bytes_pix, if_pos h0]
    exact composite_euclidean_corner_red.1
  · show ((set_png_bytes _ _).pix 3 3).red = 157
    rw [set_png_bytes_pix, if_pos h3]
    exact composite_euclidean_corner_red.2

/-! ## C8: two sources at opposite corners of the `8 x 8` canvas -/

/-- C9 (counterexample): a wrapping MinAxis source on the `1 x 2` canvas, anchor
`(0, 0)`, is not the `1 x 1` canvas and yet has `max_dist = 0`. -/
theorem max_dist_zero_min_xy_wrap :
    (dist_entry.init 1 2 dist_type.MIN_XY ⟨0, 0⟩ 1 1 1 false true).max_dist = 0 := by
  rw [init_max_dist_wrap]
  simp [dist_delta, min_xy_dist, Int.tdiv]

/-- C9 (amended): for every source built by the constructor with `width ≥ 1`,
`height ≥ 1`, other than on the `1 x 1` canvas, with an in-bounds anchor and any
value of the wrap flag, the cached `max_dist` is strictly positive for every
metric, provided that a wrapping MinAxis source has `width ≥ 2` and
`height ≥ 2`. -/
theorem max_dist_pos (width height : ℤ) (t : dist_type) (pnt : point)
    (rweight gweight bweight : ℝ) (reverse wrap : Bool)
    (hw : 1 ≤ width) (hh : 1 ≤ height) (h11 : ¬ (width = 1 ∧ height = 1))
    (_hx0 : 0 ≤ pnt.x) (hx : pnt.x < width) (_hy0 : 0 ≤ pnt.y) (hy : pnt.y < height)
    (hmin : t = dist_type.MIN_XY → wrap = true → 2 ≤ width ∧ 2 ≤ height) :
    0 < (dist_entry.init width height t pnt rweight gweight bweight reverse wrap).max_dist := by
  cases wrap
  · exact init_max_dist_nowrap_pos width height t pnt rweight gweight bweight reverse hx hy
  · rw [init_max_dist_wrap, Int.tdiv_eq_ediv (by omega) (by norm_num),
      Int.tdiv_eq_ediv (by omega) (by norm_num)]
    by_cases ht : t = dist_type.MIN_XY
    · obtain ⟨h2w, h2h⟩ := hmin ht rfl
      apply dist_delta_pos
      · show width / 2 ≠ 0
        omega
      · show height / 2 ≠ 0
        omega
    · apply dist_delta_pos_of_ne t ht
      show width / 2 ≠ 0 ∨ height / 2 ≠ 0
      omega

/-- C9 (witness): a wrapping MinAxis source on the `2 x 3` canvas. -/
theorem max_dist_pos_witness :
    0 < (dist_entry.init 2 3 dist_type.MIN_XY ⟨1, 2⟩ 1 1 1 false true).max_dist :=
  max_dist_pos 2 3 dist_type.MIN_XY ⟨1, 2⟩ 1 1 1 false true
    (by decide) (by decide) (by decide) (by decide) (by decide) (by decide) (by decide)
    (fun _ _ => ⟨by decide, by decide⟩)

/-! ## C10: the triangle inequality -/

/-- C10 (counterexample): for `a = (1, 0)` and `b = (0, 1)`,
`min_xy_dist (a + b) = 1` exceeds `min_xy_dist a + min_xy_dist b = 0`. -/
theorem min_xy_dist_not_subadditive :
    min_xy_dist (⟨1, 0⟩ + ⟨0, 1⟩) = 1 ∧ min_xy_dist ⟨1, 0⟩ + min_xy_dist ⟨0, 1⟩ = 0 ∧
      ¬ (min_xy_dist (⟨1, 0⟩ + ⟨0, 1⟩) ≤ min_xy_dist ⟨1, 0⟩ + min_xy_dist ⟨0, 1⟩) := by
  obtain ⟨h1, h2, h3⟩ := min_xy_dist_unit_steps
  have hs : (⟨1, 0⟩ : point) + ⟨0, 1⟩ = ⟨1, 1⟩ := rfl
  rw [hs, h1, h2, h3]
  norm_num

/-- C10 (amended): `manhattan_dist` and `chebyshev_dist` satisfy the triangle
inequality on integer displacements, `m (a + b) ≤ m a + m b` for all `a` and
`b`; `min_xy_dist` does not satisfy it for all `a` and `b`. -/
theorem manhattan_chebyshev_triangle :
    (∀ a b : point, manhattan_dist (a + b) ≤ manhattan_dist a + manhattan_dist b) ∧
      (∀ a b : point, chebyshev_dist (a + b) ≤ chebyshev_dist a + chebyshev_dist b) ∧
      ¬ (∀ a b : point, min_xy_dist (a + b) ≤ min_xy_dist a + min_xy_dist b) := by
  refine ⟨?_, ?_, ?_⟩
  · intro a b
    unfold manhattan_dist
    have h : |(a + b).x| + |(a + b).y| ≤ (|a.x| + |a.y|) + (|b.x| + |b.y|) := by
      simp only [point_add_x, point_add_y]
      linarith [abs_add a.x b.x, abs_add a.y b.y]
    exact_mod_cast h
  · intro a b
    unfold chebyshev_dist
    have h : max |(a + b).x| |(a + b).y| ≤ max |a.x| |a.y| + max |b.x| |b.y| := by
      simp only [point_add_x, point_add_y]
      apply max_le
      · exact le_trans (abs_add a.x b.x) (add_le_add (le_max_left _ _) (le_max_left _ _))
      · exact le_trans (abs_add a.y b.y) (add_le_add (le_max_right _ _) (le_max_right _ _))
    exact_mod_cast h
  · intro hall
    have h := hall ⟨1, 0⟩ ⟨0, 1⟩
    obtain ⟨h1, h2, h3⟩ := min_xy_dist_unit_steps
    have hs : (⟨1, 0⟩ : point) + ⟨0, 1⟩ = ⟨1, 1⟩ := rfl
    rw [hs, h1, h2, h3] at h
    norm_num at h

/-! ## C11: symmetry of the three integer metrics -/

/-- C11: each of `manhattan_dist`, `chebyshev_dist` and `min_xy_dist` is
symmetric: for every integer displacement `d` the value at `-d` is the value
at `d`, and for all points `a` and `b` the two-point form at `(a, b)` is the
two-point form at `(b, a)`. -/
theorem metrics_symmetric (d a b : point) :
    (manhattan_dist ⟨-d.x, -d.y⟩ = manhattan_dist d ∧
      chebyshev_dist ⟨-d.x, -d.y⟩ = chebyshev_dist d ∧
      min_xy_dist ⟨-d.x, -d.y⟩ = min_xy_dist d) ∧
    (manhattan_dist_between a b = manhattan_dist_between b a ∧
      chebyshev_dist_between a b = chebyshev_dist_between b a ∧
      min_xy_dist_between a b = min_xy_dist_between b a) := by
  have hx : |a.x - b.x| = |b.x - a.x| := abs_sub_comm _ _
  have hy : |a.y - b.y| = |b.y - a.y| := abs_sub_comm _ _
  refine ⟨⟨?_, ?_, ?_⟩, ⟨?_, ?_, ?_⟩⟩
  · simp only [manhattan_dist, abs_neg]
  · simp only [chebyshev_dist, abs_neg]
  · simp only [min_xy_dist, abs_neg]
  · simp only [manhattan_dist_between, manhattan_dist, point_sub_x, point_sub_y, hx, hy]
  · simp only [chebyshev_dist_between, chebyshev_dist, point_sub_x, point_sub_y, hx, hy]
  · simp only [min_xy_dist_between, min_xy_dist, point_sub_x, point_sub_y, hx, hy]

/-! ## C12: the displacement `(0, 0)` -/

/-- C12: for each of the five metrics, `dist_delta` applied to the
displacement `(0, 0)` returns `0`; so does each metric function itself. -/
theorem dist_delta_origin :
    (∀ t : dist_type, dist_delta t ⟨0, 0⟩ = 0) ∧
      manhattan_dist ⟨0, 0⟩ = 0 ∧ euclidean_dist ⟨0, 0⟩ = 0 ∧ euclidean_dist2 ⟨0, 0⟩ = 0 ∧
      chebyshev_dist ⟨0, 0⟩ = 0 ∧ min_xy_dist ⟨0, 0⟩ = 0 :=
  ⟨dist_delta_zero, dist_delta_zero dist_type.MANHATTAN, dist_delta_zero dist_type.EUCLIDEAN,
    dist_delta_zero dist_type.EUCLIDEAN2, dist_delta_zero dist_type.CHEBYSHEV,
    dist_delta_zero dist_type.MIN_XY⟩

/-! ## C13: the squared Euclidean metric -/

/-- C13 (counterexample): at `d = (1, 1)`, `euclidean_dist` returns the `double`
`1.4142135623730951 = 6369051672525773 / 2 ^ 52`; its square computed in
`double` is `2.0000000000000004 = 4503599627370497 / 2 ^ 51`, while
`euclidean_dist2` is `2`; the exact square of the returned value is not `2`
either. -/
theorem euclidean_dist_sq_diag_one :
    euclidean_dist_f64 ⟨1, 1⟩ = 6369051672525773 / 4503599627370496 ∧
      round_f64 (euclidean_dist_f64 ⟨1, 1⟩ * euclidean_dist_f64 ⟨1, 1⟩)
        = 4503599627370497 / 2251799813685248 ∧
      euclidean_dist2 ⟨1, 1⟩ = 2 ∧
      euclidean_dist2 ⟨1, 1⟩
        ≠ round_f64 (euclidean_dist_f64 ⟨1, 1⟩ * euclidean_dist_f64 ⟨1, 1⟩) ∧
      euclidean_dist2 ⟨1, 1⟩ ≠ euclidean_dist_f64 ⟨1, 1⟩ ^ 2 := by
  have h2 : euclidean_dist2 ⟨1, 1⟩ = 2 := by
    unfold euclidean_dist2
    norm_num
  refine ⟨euclidean_dist_f64_diag_one, ?_, h2, ?_, ?_⟩
  · rw [euclidean_dist_f64_diag_one]
    exact round_f64_sq_diag_one
  · rw [euclidean_dist_f64_diag_one, round_f64_sq_diag_one, h2]
    norm_num
  · rw [euclidean_dist_f64_diag_one, h2]
    norm_num

/-- C13 (amended): for every integer displacement `d`, `euclidean_dist` returns
the square root of `euclidean_dist2 d` rounded to the nearest `double`, and the
square of that value, exact or computed in `double`, differs from
`euclidean_dist2 d` by at most `euclidean_dist2 d * 2 ^ (-51)`. -/
theorem euclidean_dist_sq_near (d : point) :
    euclidean_dist_f64 d = round_f64 (Real.sqrt (euclidean_dist2 d)) ∧
      |euclidean_dist_f64 d ^ 2 - euclidean_dist2 d| ≤ euclidean_dist2 d * 2 ^ (-51 : ℤ) ∧
      |round_f64 (euclidean_dist_f64 d * euclidean_dist_f64 d) - euclidean_dist2 d|
        ≤ euclidean_dist2 d * 2 ^ (-51 : ℤ) := by
  refine ⟨rfl, ?_⟩
  unfold euclidean_dist_f64 euclidean_dist
  rcases euclidean_dist2_int d with h | h
  · rw [h, Real.sqrt_zero, round_f64_zero]
    norm_num [round_f64_zero]
  · exact sq_round_f64_sqrt_bound h

/-! ## C14: a wrapping source and the pixel across an edge -/

/-- C14: for a wrapping source on a canvas with `width ≥ 2` and `height ≥ 2`
whose anchor lies on a canvas edge, `dist_to_point` of the in-canvas pixel on
the opposite edge equals `dist_to_point` of the unwrapped neighbour just
outside the canvas, both being the metric of a one-step displacement along
that axis; in turn for the left, right, top and bottom edges. -/
theorem dist_to_point_across_edge (width height : ℤ) (t : dist_type) (ax ay : ℤ)
    (rweight gweight bweight : ℝ) (reverse : Bool) (hw : 2 ≤ width) (hh : 2 ≤ height)
    (_hax0 : 0 ≤ ax) (_hax : ax < width) (_hay0 : 0 ≤ ay) (_hay : ay < height) :
    ((dist_entry.init width height t ⟨0, ay⟩ rweight gweight bweight reverse true).dist_to_point
          ⟨width - 1, ay⟩
        = (dist_entry.init width height t ⟨0, ay⟩ rweight gweight bweight reverse
            true).dist_to_point ⟨-1, ay⟩ ∧
      (dist_entry.init width height t ⟨0, ay⟩ rweight gweight bweight reverse true).dist_to_point
          ⟨-1, ay⟩ = dist_delta t ⟨1, 0⟩) ∧
    ((dist_entry.init width height t ⟨width - 1, ay⟩ rweight gweight bweight reverse
          true).dist_to_point ⟨0, ay⟩
        = (dist_entry.init width height t ⟨width - 1, ay⟩ rweight gweight bweight reverse
            true).dist_to_point ⟨width, ay⟩ ∧
      (dist_entry.init width height t ⟨width - 1, ay⟩ rweight gweight bweight reverse
          true).dist_to_point ⟨width, ay⟩ = dist_delta t ⟨1, 0⟩) ∧
    ((dist_entry.init width height t ⟨ax, 0⟩ rweight gweight bweight reverse true).dist_to_point
          ⟨ax, height - 1⟩
        = (dist_entry.init width height t ⟨ax, 0⟩ rweight gweight bweight reverse
            true).dist_to_point ⟨ax, -1⟩ ∧
      (dist_entry.init width height t ⟨ax, 0⟩ rweight gweight bweight reverse true).dist_to_point
          ⟨ax, -1⟩ = dist_delta t ⟨0, 1⟩) ∧
    ((dist_entry.init width height t ⟨ax, height - 1⟩ rweight gweight bweight reverse
          true).dist_to_point ⟨ax, 0⟩
        = (dist_entry.init width height t ⟨ax, height - 1⟩ rweight gweight bweight reverse
            true).dist_to_point ⟨ax, height⟩ ∧
      (dist_entry.init width height t ⟨ax, height - 1⟩ rweight gweight bweight reverse
          true).dist_to_point ⟨ax, height⟩ = dist_delta t ⟨0, 1⟩) := by
  have hxl := wrap_axis_low_edge hw
  have hxh := wrap_axis_high_edge hw
  have hyl := wrap_axis_low_edge hh
  have hyh := wrap_axis_high_edge hh
  have hsx : wrap_axis ax ax width = 0 := wrap_axis_same (by omega)
  have hsy : wrap_axis ay ay height = 0 := wrap_axis_same (by omega)
  simp only [init_dist_to_point_wrap, hxl.1, hxl.2, hxh.1, hxh.2, hyl.1, hyl.2, hyh.1, hyh.2,
    hsx, hsy, and_self]

/-- C14 (witness): a wrapping Euclidean source on the `5 x 4` canvas. -/
theorem dist_to_point_across_edge_witness :
    ((dist_entry.init 5 4 dist_type.EUCLIDEAN ⟨0, 2⟩ 1 1 1 false true).dist_to_point
          ⟨5 - 1, 2⟩
        = (dist_entry.init 5 4 dist_type.EUCLIDEAN ⟨0, 2⟩ 1 1 1 false true).dist_to_point
            ⟨-1, 2⟩ ∧
      (dist_entry.init 5 4 dist_type.EUCLIDEAN ⟨0, 2⟩ 1 1 1 false true).dist_to_point
          ⟨-1, 2⟩ = dist_delta dist_type.EUCLIDEAN ⟨1, 0⟩) ∧
    ((dist_entry.init 5 4 dist_type.EUCLIDEAN ⟨5 - 1, 2⟩ 1 1 1 false true).dist_to_point
          ⟨0, 2⟩
        = (dist_entry.init 5 4 dist_type.EUCLIDEAN ⟨5 - 1, 2⟩ 1 1 1 false true).dist_to_point
            ⟨5, 2⟩ ∧
      (dist_entry.init 5 4 dist_type.EUCLIDEAN ⟨5 - 1, 2⟩ 1 1 1 false true).dist_to_point
          ⟨5, 2⟩ = dist_delta dist_type.EUCLIDEAN ⟨1, 0⟩) ∧
    ((dist_entry.init 5 4 dist_type.EUCLIDEAN ⟨3, 0⟩ 1 1 1 false true).dist_to_point
          ⟨3, 4 - 1⟩
        = (dist_entry.init 5 4 dist_type.EUCLIDEAN ⟨3, 0⟩ 1 1 1 false true).dist_to_point
            ⟨3, -1⟩ ∧
      (dist_entry.init 5 4 dist_type.EUCLIDEAN ⟨3, 0⟩ 1 1 1 false true).dist_to_point
          ⟨3, -1⟩ = dist_delta dist_type.EUCLIDEAN ⟨0, 1⟩) ∧
    ((dist_entry.init 5 4 dist_type.EUCLIDEAN ⟨3, 4 - 1⟩ 1 1 1 false true).dist_to_point
          ⟨3, 0⟩
        = (dist_entry.init 5 4 dist_type.EUCLIDEAN ⟨3, 4 - 1⟩ 1 1 1 false true).dist_to_point
            ⟨3, 4⟩ ∧
      (dist_entry.init 5 4 dist_type.EUCLIDEAN ⟨3, 4 - 1⟩ 1 1 1 false true).dist_to_point
          ⟨3, 4⟩ = dist_delta dist_type.EUCLIDEAN ⟨0, 1⟩) :=
  dist_to_point_across_edge 5 4 dist_type.EUCLIDEAN 3 2 1 1 1 false
    (by decide) (by decide) (by decide) (by decide) (by decide) (by decide)

/-! ## C15: the normalisation of a non-wrapping source and the four corners -/

/-- C15: for every non-wrapping source with an in-bounds anchor on a canvas
with `width ≥ 1` and `height ≥ 1`, and for each of the five metrics, the
`max_dist` the constructor computes from the per-axis maxima equals the largest
value of the metric over the displacements from the anchor to the four canvas
corners `(0, 0)`, `(width, 0)`, `(0, height)` and `(width, height)`. -/
theorem max_dist_eq_corner_max (width height : ℤ) (t : dist_type) (pnt : point)
    (rweight gweight bweight : ℝ) (reverse : Bool) (_hw : 1 ≤ width) (_hh : 1 ≤ height)
    (hx0 : 0 ≤ pnt.x) (hx : pnt.x < width) (hy0 : 0 ≤ pnt.y) (hy : pnt.y < height) :
    (dist_entry.init width height t pnt rweight gweight bweight reverse false).max_dist
      = corner_max_dist t width height pnt := by
  rw [init_max_dist_nowrap]
  unfold corner_max_dist
  have hX := le_max_left pnt.x (width - pnt.x)
  have hX' := le_max_right pnt.x (width - pnt.x)
  have hY := le_max_left pnt.y (height - pnt.y)
  have hY' := le_max_right pnt.y (height - pnt.y)
  have habsX : |max pnt.x (width - pnt.x)| = max pnt.x (width - pnt.x) :=
    abs_of_nonneg (le_trans hx0 hX)
  have habsY : |max pnt.y (height - pnt.y)| = max pnt.y (height - pnt.y) :=
    abs_of_nonneg (le_trans hy0 hY)
  have hle : ∀ c : point, (c.x = 0 ∨ c.x = width) → (c.y = 0 ∨ c.y = height) →
      dist_delta t (pnt - c)
        ≤ dist_delta t ⟨max pnt.x (width - pnt.x), max pnt.y (height - pnt.y)⟩ := by
    intro c hcx hcy
    apply dist_delta_mono
    · show |pnt.x - c.x| ≤ |max pnt.x (width - pnt.x)|
      rw [habsX, abs_le]
      rcases hcx with h | h <;> rw [h] <;> constructor <;> omega
    · show |pnt.y - c.y| ≤ |max pnt.y (height - pnt.y)|
      rw [habsY, abs_le]
      rcases hcy with h | h <;> rw [h] <;> constructor <;> omega
  apply le_antisymm
  · have hcx : ∃ cx : ℤ, (cx = 0 ∨ cx = width) ∧ |pnt.x - cx| = max pnt.x (width - pnt.x) := by
      rcases le_total (width - pnt.x) pnt.x with h | h
      · exact ⟨0, Or.inl rfl, by rw [max_eq_left h, sub_zero, abs_of_nonneg hx0]⟩
      · exact ⟨width, Or.inr rfl, by rw [max_eq_right h, abs_of_nonpos (by omega)]; omega⟩
    have hcy : ∃ cy : ℤ, (cy = 0 ∨ cy = height) ∧ |pnt.y - cy| = max pnt.y (height - pnt.y) := by
      rcases le_total (height - pnt.y) pnt.y with h | h
      · exact ⟨0, Or.inl rfl, by rw [max_eq_left h, sub_zero, abs_of_nonneg hy0]⟩
      · exact ⟨height, Or.inr rfl, by rw [max_eq_right h, abs_of_nonpos (by omega)]; omega⟩
    obtain ⟨cx, hcx1, hcx2⟩ := hcx
    obtain ⟨cy, hcy1, hcy2⟩ := hcy
    have heq : dist_delta t ⟨max pnt.x (width - pnt.x), max pnt.y (height - pnt.y)⟩
        = dist_delta t (pnt - ⟨cx, cy⟩) := by
      apply dist_delta_abs_congr
      · show |max pnt.x (width - pnt.x)| = |pnt.x - cx|
        rw [habsX, hcx2]
      · show |max pnt.y (height - pnt.y)| = |pnt.y - cy|
        rw [habsY, hcy2]
    rw [heq]
    rcases hcx1 with h1 | h1 <;> rcases hcy1 with h2 | h2 <;> subst h1 <;> subst h2
    · exact le_max_of_le_left (le_max_left _ _)
    · exact le_max_of_le_right (le_max_left _ _)
    · exact le_max_of_le_left (le_max_right _ _)
    · exact le_max_of_le_right (le_max_right _ _)
  · exact max_le
      (max_le (hle ⟨0, 0⟩ (Or.inl rfl) (Or.inl rfl)) (hle ⟨width, 0⟩ (Or.inr rfl) (Or.inl rfl)))
      (max_le (hle ⟨0, height⟩ (Or.inl rfl) (Or.inr rfl))
        (hle ⟨width, height⟩ (Or.inr rfl) (Or.inr rfl)))

/-- C15 (witness): a MinAxis source at `(1, 2)` on the `5 x 3` canvas. -/
theorem max_dist_eq_corner_max_witness :
    (dist_entry.init 5 3 dist_type.MIN_XY ⟨1, 2⟩ 1 1 1 false false).max_dist
      = corner_max_dist dist_type.MIN_XY 5 3 ⟨1, 2⟩ :=
  max_dist_eq_corner_max 5 3 dist_type.MIN_XY ⟨1, 2⟩ 1 1 1 false
    (by decide) (by decide) (by decide) (by decide) (by decide) (by decide)

/-! ## C16: the scaled distance of a wrapping source -/

/-- C16: for every wrapping source built by the constructor on a canvas with
`width ≥ 2`, `height ≥ 2` and an in-bounds anchor, for each of the five metrics
and every in-canvas pixel `p`, the displacement `dist_to_point` uses has
magnitude at most `width / 2` and `height / 2` (integer division) along the two
axes, `dist_to_point p ≤ max_dist`, `max_dist` is positive and `scaled_dist p`
lies in `[0, 1]`. -/
theorem scaled_dist_mem_unit_wrap (width height : ℤ) (t : dist_type) (pnt : point)
    (rweight gweight bweight : ℝ) (reverse : Bool) (p : point)
    (hw : 2 ≤ width) (hh : 2 ≤ height)
    (hx0 : 0 ≤ pnt.x) (hx : pnt.x < width) (hy0 : 0 ≤ pnt.y) (hy : pnt.y < height)
    (hpx0 : 0 ≤ p.x) (hpx : p.x < width) (hpy0 : 0 ≤ p.y) (hpy : p.y < height) :
    (|((dist_entry.init width height t pnt rweight gweight bweight reverse true).delta_to_point
          p).x| ≤ Int.tdiv width 2 ∧
      |((dist_entry.init width height t pnt rweight gweight bweight reverse true).delta_to_point
          p).y| ≤ Int.tdiv height 2) ∧
    (dist_entry.init width height t pnt rweight gweight bweight reverse true).dist_to_point p
      ≤ (dist_entry.init width height t pnt rweight gweight bweight reverse true).max_dist ∧
    0 < (dist_entry.init width height t pnt rweight gweight bweight reverse true).max_dist ∧
    0 ≤ (dist_entry.init width height t pnt rweight gweight bweight reverse true).scaled_dist p ∧
    (dist_entry.init width height t pnt rweight gweight bweight reverse true).scaled_dist p
      ≤ 1 := by
  have hwx := wrap_axis_nonneg hx0 hx hpx0 hpx
  have hwy := wrap_axis_nonneg hy0 hy hpy0 hpy
  have hdw : Int.tdiv width 2 = width / 2 := Int.tdiv_eq_ediv (by omega) (by norm_num)
  have hdh : Int.tdiv height 2 = height / 2 := Int.tdiv_eq_ediv (by omega) (by norm_num)
  have hax : |wrap_axis pnt.x p.x width| ≤ Int.tdiv width 2 := by
    rw [abs_of_nonneg hwx, hdw]
    exact wrap_axis_le_half _ _ _
  have hay : |wrap_axis pnt.y p.y height| ≤ Int.tdiv height 2 := by
    rw [abs_of_nonneg hwy, hdh]
    exact wrap_axis_le_half _ _ _
  have hpos := init_max_dist_wrap_pos width height t pnt rweight gweight bweight reverse hw hh
  have hle : (dist_entry.init width height t pnt rweight gweight bweight reverse
      true).dist_to_point p
        ≤ (dist_entry.init width height t pnt rweight gweight bweight reverse true).max_dist := by
    rw [init_dist_to_point_wrap, init_max_dist_wrap]
    apply dist_delta_mono
    · show |wrap_axis pnt.x p.x width| ≤ |Int.tdiv width 2|
      exact le_trans hax (le_abs_self _)
    · show |wrap_axis pnt.y p.y height| ≤ |Int.tdiv height 2|
      exact le_trans hay (le_abs_self _)
  have hnn : 0 ≤ (dist_entry.init width height t pnt rweight gweight bweight reverse
      true).dist_to_point p := by
    rw [init_dist_to_point_wrap]
    exact dist_delta_nonneg t _
  have h0 := div_nonneg hnn hpos.le
  have h1 := (div_le_one hpos).mpr hle
  refine ⟨?_, hle, hpos, ?_⟩
  · rw [init_delta_to_point_wrap]
    exact ⟨hax, hay⟩
  · rw [init_scaled_dist]
    cases reverse
    · exact ⟨h0, h1⟩
    · simp only [if_true]
      constructor <;> linarith

/-- C16 (witness): a wrapping squared-Euclidean source at `(0, 0)` on the
`5 x 4` canvas, evaluated at the pixel `(4, 3)`. -/
theorem scaled_dist_mem_unit_wrap_witness :
    (|((dist_entry.init 5 4 dist_type.EUCLIDEAN2 ⟨0, 0⟩ 1 1 1 true true).delta_to_point
          ⟨4, 3⟩).x| ≤ Int.tdiv 5 2 ∧
      |((dist_entry.init 5 4 dist_type.EUCLIDEAN2 ⟨0, 0⟩ 1 1 1 true true).delta_to_point
          ⟨4, 3⟩).y| ≤ Int.tdiv 4 2) ∧
    (dist_entry.init 5 4 dist_type.EUCLIDEAN2 ⟨0, 0⟩ 1 1 1 true true).dist_to_point ⟨4, 3⟩
      ≤ (dist_entry.init 5 4 dist_type.EUCLIDEAN2 ⟨0, 0⟩ 1 1 1 true true).max_dist ∧
    0 < (dist_entry.init 5 4 dist_type.EUCLIDEAN2 ⟨0, 0⟩ 1 1 1 true true).max_dist ∧
    0 ≤ (dist_entry.init 5 4 dist_type.EUCLIDEAN2 ⟨0, 0⟩ 1 1 1 true true).scaled_dist ⟨4, 3⟩ ∧
    (dist_entry.init 5 4 dist_type.EUCLIDEAN2 ⟨0, 0⟩ 1 1 1 true true).scaled_dist ⟨4, 3⟩ ≤ 1 :=
  scaled_dist_mem_unit_wrap 5 4 dist_type.EUCLIDEAN2 ⟨0, 0⟩ 1 1 1 true ⟨4, 3⟩
    (by decide) (by decide) (by decide) (by decide) (by decide) (by decide)
    (by decide) (by decide) (by decide) (by decide)

/-! ## C17: the wrapped distance and the true toroidal distance -/

/-- C17: for a wrapping source with metric Manhattan, Chebyshev or MinAxis, an
in-bounds anchor and every in-canvas pixel `p`, `dist_to_point p` is the true
toroidal distance: the minimum of the metric over the displacements
`anchor - p + (i * width, j * height)` for all integers `i` and `j`. -/
theorem dist_to_point_wrap_toroidal_separable (width height : ℤ) (t : dist_type) (pnt : point)
    (rweight gweight bweight : ℝ) (reverse : Bool) (p : point)
    (_ht : t = dist_type.MANHATTAN ∨ t = dist_type.CHEBYSHEV ∨ t = dist_type.MIN_XY)
    (hx0 : 0 ≤ pnt.x) (hx : pnt.x < width) (hy0 : 0 ≤ pnt.y) (hy : pnt.y < height)
    (hpx0 : 0 ≤ p.x) (hpx : p.x < width) (hpy0 : 0 ≤ p.y) (hpy : p.y < height) :
    is_toroidal_min t width height pnt p
      ((dist_entry.init width height t pnt rweight gweight bweight reverse true).dist_to_point
        p) :=
  init_dist_to_point_wrap_toroidal width height t pnt rweight gweight bweight reverse p
    hx0 hx hy0 hy hpx0 hpx hpy0 hpy

/-- C17 (witness): a wrapping MinAxis source at `(0, 3)` on the `6 x 4` canvas,
evaluated at the pixel `(5, 0)`. -/
theorem dist_to_point_wrap_toroidal_separable_witness :
    is_toroidal_min dist_type.MIN_XY 6 4 ⟨0, 3⟩ ⟨5, 0⟩
      ((dist_entry.init 6 4 dist_type.MIN_XY ⟨0, 3⟩ 1 1 1 false true).dist_to_point ⟨5, 0⟩) :=
  dist_to_point_wrap_toroidal_separable 6 4 dist_type.MIN_XY ⟨0, 3⟩ 1 1 1 false ⟨5, 0⟩
    (Or.inr (Or.inr rfl)) (by decide) (by decide) (by decide) (by decide)
    (by decide) (by decide) (by decide) (by decide)

/-! ## C18: the wrapped distance of the Euclidean metrics -/

/-- C18 (counterexample): there is no canvas, in-bounds anchor and in-canvas
pixel at which the `dist_to_point` of a wrapping Euclidean or squared
Euclidean source differs from the minimum of the metric over the displacements
`anchor - p + (i * width, j * height)`. -/
theorem no_euclidean_wrap_gap :
    ¬ ∃ (t : dist_type) (width height : ℤ) (pnt p : point) (rweight gweight bweight : ℝ)
        (reverse : Bool),
        (t = dist_type.EUCLIDEAN ∨ t = dist_type.EUCLIDEAN2) ∧
        (0 ≤ pnt.x ∧ pnt.x < width ∧ 0 ≤ pnt.y ∧ pnt.y < height) ∧
        (0 ≤ p.x ∧ p.x < width ∧ 0 ≤ p.y ∧ p.y < height) ∧
        ¬ is_toroidal_min t width height pnt p
          ((dist_entry.init width height t pnt rweight gweight bweight reverse
            true).dist_to_point p) := by
  rintro ⟨t, width, height, pnt, p, rweight, gweight, bweight, reverse, _, ha, hp, hne⟩
  exact hne (init_dist_to_point_wrap_toroidal width height t pnt rweight gweight bweight
    reverse p ha.1 ha.2.1 ha.2.2.1 ha.2.2.2 hp.1 hp.2.1 hp.2.2.1 hp.2.2.2)

/-- C18 (amended): for the metrics Euclidean and SquaredEuclidean too, the
wrapping `dist_to_point` is the true minimal toroidal distance: for every
canvas size, in-bounds anchor and in-canvas pixel `p`, `dist_to_point p` is the
minimum of the metric over the displacements
`anchor - p + (i * width, j * height)` for all integers `i` and `j`. -/
theorem dist_to_point_wrap_toroidal_euclidean (width height : ℤ) (t : dist_type) (pnt : point)
    (rweight gweight bweight : ℝ) (reverse : Bool) (p : point)
    (_ht : t = dist_type.EUCLIDEAN ∨ t = dist_type.EUCLIDEAN2)
    (hx0 : 0 ≤ pnt.x) (hx : pnt.x < width) (hy0 : 0 ≤ pnt.y) (hy : pnt.y < height)
    (hpx0 : 0 ≤ p.x) (hpx : p.x < width) (hpy0 : 0 ≤ p.y) (hpy : p.y < height) :
    is_toroidal_min t width height pnt p
      ((dist_entry.init width height t pnt rweight gweight bweight reverse true).dist_to_point
        p) :=
  init_dist_to_point_wrap_toroidal width height t pnt rweight gweight bweight reverse p
    hx0 hx hy0 hy hpx0 hpx hpy0 hpy

/-- C18 (witness): a wrapping Euclidean source at `(0, 0)` on the `5 x 5`
canvas, evaluated at the pixel `(4, 3)`. -/
theorem dist_to_point_wrap_toroidal_euclidean_witness :
    is_toroidal_min dist_type.EUCLIDEAN 5 5 ⟨0, 0⟩ ⟨4, 3⟩
      ((dist_entry.init 5 5 dist_type.EUCLIDEAN ⟨0, 0⟩ 1 1 1 false true).dist_to_point ⟨4, 3⟩) :=
  dist_to_point_wrap_toroidal_euclidean 5 5 dist_type.EUCLIDEAN ⟨0, 0⟩ 1 1 1 false ⟨4, 3⟩
    (Or.inl rfl) (by decide) (by decide) (by decide) (by decide)
    (by decide) (by decide) (by decide) (by decide)

/-! ## C19: the sources of the first frame of a video -/

/-- C19 (the code at the failing input): on the `8 x 8` canvas, five sources
drawn as Manhattan at `(0, 0)` with the wrap flag drawn `false` and weights
`0.5`, each moving by
`(1, 0)`: at frame `0` every source has `wrap = true` and `max_dist = 16`, the
non-wrapping normalisation, while the wrap normalisation
`dist_delta (width / 2, height / 2)` is `8`; at frame `1` every source has
`max_dist = 8`. -/
theorem create_video_first_frame_max_dist :
    (create_video_entries_at 8 8
        (create_video_entries 8 8
          (List.replicate 5 ⟨dist_type.MANHATTAN, 0, 0, false, false, 0.5, 0.5, 0.5⟩))
        (List.replicate 5 ⟨1, 0⟩) 0).map (fun e => (e.wrap, e.max_dist))
        = List.replicate 5 (true, 16) ∧
      (create_video_entries_at 8 8
        (create_video_entries 8 8
          (List.replicate 5 ⟨dist_type.MANHATTAN, 0, 0, false, false, 0.5, 0.5, 0.5⟩))
        (List.replicate 5 ⟨1, 0⟩) 1).map (fun e => (e.wrap, e.max_dist))
        = List.replicate 5 (true, 8) ∧
      dist_delta dist_type.MANHATTAN ⟨Int.tdiv 8 2, Int.tdiv 8 2⟩ = 8 := by
  have h4 : Int.tdiv 8 2 = 4 := by decide
  have hm : (⟨max (0 : ℤ) (8 - 0), max (0 : ℤ) (8 - 0)⟩ : point) = ⟨8, 8⟩ := rfl
  refine ⟨?_, ?_, ?_⟩
  · simp only [create_video_entries_at, create_video_entries, make_entry, dist_entry.init,
      List.replicate, List.map, Bool.false_eq_true, if_false, hm, dist_delta,
      manhattan_dist_eight.1]
  · simp only [create_video_entries_at, create_video_entries, make_entry, dist_entry.init,
      create_video_advance, create_video_advance_entry, List.replicate, List.map,
      List.zipWith, if_true, h4, dist_delta, manhattan_dist_eight.2]
  · rw [h4]
    exact manhattan_dist_eight.2

/-! ## C20: the slots of the accumulator -/

/-- C20: for every accumulator of a canvas with `width ≥ 1` and `height ≥ 1`
(its `width` member is the canvas width and it has `width * height` slots), the
slot index `x + y * width` of an in-canvas pixel lies in `[0, width * height)`,
two in-canvas pixels with the same slot are the same pixel, and `add_to_pixel`
at one in-canvas pixel leaves the sums of every other in-canvas pixel
unchanged. -/
theorem pixel_slots_disjoint (W H : ℤ) (im : pre_image) (x y x' y' : ℤ) (r g b : ℝ)
    (_hW : 1 ≤ W) (_hH : 1 ≤ H) (hwid : im.width = W) (hlen : im.pixels.length = (W * H).toNat)
    (hx0 : 0 ≤ x) (hx : x < W) (hy0 : 0 ≤ y) (hy : y < H)
    (hx0' : 0 ≤ x') (hx' : x' < W) (hy0' : 0 ≤ y') (_hy' : y' < H) :
    (0 ≤ x + y * im.width ∧ x + y * im.width < W * H) ∧
      im.pixel_index x y < im.pixels.length ∧
      (im.pixel_index x y = im.pixel_index x' y' → x = x' ∧ y = y') ∧
      (¬ (x = x' ∧ y = y') →
        (im.add_to_pixel x y r g b).pixel_ref x' y' = im.pixel_ref x' y') := by
  have hsh : im.shaped W H ⟨im.rweight, im.gweight, im.bweight⟩ := ⟨hwid, hlen, rfl, rfl, rfl⟩
  refine ⟨?_, ?_, ?_, ?_⟩
  · rw [hwid]
    constructor <;> nlinarith
  · unfold pre_image.pixel_index
    rw [hwid, hlen]
    exact pixel_index_lt hx0 hx hy0 hy
  · unfold pre_image.pixel_index
    rw [hwid]
    exact pixel_index_inj hx0 hx hy0 hx0' hx' hy0'
  · intro hne
    exact add_to_pixel_miss hsh hx0 hx hy0 hx0' hx' hy0' hne r g b

/-- C20 (witness): the fresh accumulator of the `3 x 2` canvas, the pixels
`(2, 0)` and `(0, 1)`. -/
theorem pixel_slots_disjoint_witness :
    (0 ≤ (2 : ℤ) + 0 * (pre_image.init 3 2).width ∧
        (2 : ℤ) + 0 * (pre_image.init 3 2).width < 3 * 2) ∧
      (pre_image.init 3 2).pixel_index 2 0 < (pre_image.init 3 2).pixels.length ∧
      ((pre_image.init 3 2).pixel_index 2 0 = (pre_image.init 3 2).pixel_index 0 1 →
        (2 : ℤ) = 0 ∧ (0 : ℤ) = 1) ∧
      (¬ ((2 : ℤ) = 0 ∧ (0 : ℤ) = 1) →
        ((pre_image.init 3 2).add_to_pixel 2 0 1 1 1).pixel_ref 0 1
          = (pre_image.init 3 2).pixel_ref 0 1) :=
  pixel_slots_disjoint 3 2 (pre_image.init 3 2) 2 0 0 1 1 1 1
    (by decide) (by decide) rfl rfl (by decide) (by decide) (by decide) (by decide)
    (by decide) (by decide) (by decide) (by decide)

end Randompic
